import Mathlib

/-!
# flakyhttp: rule loading and failure decisions

A shallow embedding of `flakyhttp/flakyhttp.go`: the rule-file parser
(`loadRules`), the constructor (`NewRoundTripper`), the watch loop step
(`handleConfigUpdates`) and the matcher (`failCommon`), together with the
pieces of the Go standard library they call (`strings.TrimSpace`,
`strings.Split`, `strings.IndexByte`, `strings.TrimSuffix`,
`strconv.ParseInt`).

Go strings are modelled as lists of code points (the rule file is UTF-8
text); the separators the code looks for (`'\n'`, `' '`, `'='`, `'%'`) are
ASCII, so splitting on code points and on bytes agree, and the byte-wise
string order of Go agrees with the code-point order used here.

The mutex and the condition variable are left out: every function below is
one critical section. What `failCommon` does to the world is recorded in
`Env` (samples drawn from the shared random source, calls of
`CloseIdleConnections`); the samples `rand.Float32() * 100` are given as a
sequence of rationals, and `float32(rate)` is the rounded integer. `Await`
is its loop, run over the states that the waiter sees.
-/

namespace Flakyhttp

/-- A Go string holding UTF-8 text, as its sequence of code points. -/
abbrev Str := List Char

/-! ## package strings -/

/-- Go `unicode.IsSpace`: the white space characters that `strings.TrimSpace` removes. -/
def isSpace (c : Char) : Bool :=
  let n := c.toNat
  n == 0x09 || n == 0x0A || n == 0x0B || n == 0x0C || n == 0x0D || n == 0x20 ||
  n == 0x85 || n == 0xA0 || n == 0x1680 || (0x2000 ≤ n && n ≤ 0x200A) ||
  n == 0x2028 || n == 0x2029 || n == 0x202F || n == 0x205F || n == 0x3000

/-- Go `strings.TrimSpace`: all leading and trailing white space removed. -/
def TrimSpace (s : Str) : Str :=
  (s.dropWhile isSpace).rdropWhile isSpace

/-- Go `strings.Split(s, sep)` for a one-character separator: the pieces between
the separators, always at least one piece (`Split "" sep = [""]`). -/
def Split : Str → Char → List Str
  | [], _ => [[]]
  | c :: cs, sep =>
    if c = sep then [] :: Split cs sep
    else
      match Split cs sep with
      | [] => [[c]]
      | w :: ws => (c :: w) :: ws

/-- Go `strings.IndexByte(s, c)`: the index of the first `c` in `s`;
`none` stands for the result `-1`. -/
def IndexByte : Str → Char → Option Nat
  | [], _ => none
  | x :: xs, c => if x = c then some 0 else (IndexByte xs c).map (· + 1)

/-- Go `strings.TrimSuffix(s, suffix)`: `s` without the trailing `suffix`, if it ends in it. -/
def TrimSuffix (s suffix : Str) : Str :=
  if suffix.isSuffixOf s then s.take (s.length - suffix.length) else s

/-- Go `<` on strings (lexicographic; on UTF-8 text the byte order is the code-point order). -/
def strLess : Str → Str → Bool
  | _, [] => false
  | [], _ :: _ => true
  | a :: as, b :: bs =>
    if a.toNat < b.toNat then true
    else if b.toNat < a.toNat then false
    else strLess as bs

/-! ## package strconv -/

/-- The two errors of `strconv`: `ErrSyntax` and `ErrRange`. -/
inductive NumErr
  | errSyn
  | errRange
  deriving DecidableEq, Repr

/-- Go `strconv.lower`: `c | ('x' - 'X')`. -/
def lower (c : Char) : Nat := c.toNat ||| 0x20

/-- The value of a digit character in `ParseUint`, `none` for a character that is no digit. -/
def digitVal (c : Char) : Option Nat :=
  if 48 ≤ c.toNat ∧ c.toNat ≤ 57 then some (c.toNat - 48)
  else if 97 ≤ lower c ∧ lower c ≤ 122 then some (lower c - 97 + 10)
  else none

/-- The largest `uint64`. -/
def maxUint64 : Nat := 2 ^ 64 - 1

/-- The digit loop of `strconv.ParseUint(s, 0, 64)`, after the base prefix has been
removed: `n` is the value so far, `us` records whether an underscore was seen.
An error carries the value returned with it. -/
def parseLoop (base : Nat) : Str → Nat → Bool → Except (Nat × NumErr) (Nat × Bool)
  | [], n, us => .ok (n, us)
  | c :: cs, n, us =>
    if c = '_' then parseLoop base cs n true
    else
      match digitVal c with
      | none => .error (0, .errSyn)
      | some d =>
        if d ≥ base then .error (0, .errSyn)
        else if n ≥ maxUint64 / base + 1 then .error (maxUint64, .errRange)
        else if n * base + d > maxUint64 then .error (maxUint64, .errRange)
        else parseLoop base cs (n * base + d) us

/-- The scan of `strconv.underscoreOK` over the number proper; `saw` is the class of the
last character: `'^'` start, `'0'` digit or base prefix, `'_'` underscore, `'!'` other. -/
def underscoreLoop (hex : Bool) : Str → Char → Bool
  | [], saw => saw != '_'
  | c :: cs, saw =>
    if (48 ≤ c.toNat ∧ c.toNat ≤ 57) ∨ (hex = true ∧ 97 ≤ lower c ∧ lower c ≤ 102) then
      underscoreLoop hex cs '0'
    else if c = '_' then
      if saw ≠ '0' then false else underscoreLoop hex cs '_'
    else if saw = '_' then false
    else underscoreLoop hex cs '!'

/-- Go `strconv.underscoreOK`: underscores appear only as digit separators. -/
def underscoreOK (s : Str) : Bool :=
  let s1 := match s with
    | c :: cs => if c = '-' ∨ c = '+' then cs else s
    | [] => s
  match s1 with
  | c0 :: c1 :: rest =>
    if c0 = '0' ∧ (lower c1 = 98 ∨ lower c1 = 111 ∨ lower c1 = 120) then
      underscoreLoop (lower c1 == 120) rest '0'
    else underscoreLoop false s1 '^'
  | _ => underscoreLoop false s1 '^'

/-- Go `strconv.ParseUint(s, 0, 64)`: the value and the error returned (`none` for `nil`). -/
def ParseUint (s : Str) : Nat × Option NumErr :=
  match s with
  | [] => (0, some .errSyn)
  | c0 :: tl =>
    let bs : Nat × Str :=
      if c0 = '0' then
        match tl with
        | c1 :: rest =>
          if s.length ≥ 3 ∧ lower c1 = 98 then (2, rest)
          else if s.length ≥ 3 ∧ lower c1 = 111 then (8, rest)
          else if s.length ≥ 3 ∧ lower c1 = 120 then (16, rest)
          else (8, tl)
        | [] => (8, tl)
      else (10, s)
    match parseLoop bs.1 bs.2 0 false with
    | .error (v, e) => (v, some e)
    | .ok (n, us) => if us && !underscoreOK s then (0, some .errSyn) else (n, none)

/-- Go `strconv.ParseInt(s, 0, 64)`: the value and the error returned (`none` for `nil`).
A range error comes with the nearest `int64`, a syntax error with 0. -/
def ParseInt (s : Str) : Int × Option NumErr :=
  match s with
  | [] => (0, some .errSyn)
  | c :: cs =>
    let neg : Bool := c == '-'
    let t := if c = '+' ∨ c = '-' then cs else s
    match ParseUint t with
    | (_, some .errSyn) => (0, some .errSyn)
    | (un, _) =>
      if !neg && un ≥ 2 ^ 63 then (2 ^ 63 - 1, some .errRange)
      else if neg && un > 2 ^ 63 then (-(2 ^ 63), some .errRange)
      else (if neg then -(un : Int) else (un : Int), none)

/-! ## package flakyhttp: data -/

/-- Go `type pair struct{ key, value string }`. -/
structure pair where
  key : Str
  value : Str
  deriving DecidableEq, Repr

/-- Go `type configRule struct{ pairs []pair }`. -/
structure configRule where
  pairs : List pair
  deriving DecidableEq, Repr

/-- The two kinds of error of `ioutil.ReadFile` that the code tells apart. -/
inductive ReadErr
  | notExist
  | other
  deriving DecidableEq, Repr

/-- The errors returned by `NewRoundTripper` and `loadRules`. -/
inductive Err
  | read (e : ReadErr)
  | watch
  | malformedPair
  | num (e : NumErr)
  deriving DecidableEq, Repr

/-- Go `os.IsNotExist(err)`. -/
def osIsNotExist : Err → Bool
  | .read .notExist => true
  | _ => false

/-- The file system as `ioutil.ReadFile` sees it: the content of a path, or a read error. -/
abbrev FS := Str → Except ReadErr Str

/-- The fields of Go `RoundTripper` that hold the configuration: the rule file path, the
fixed pairs, the revision counter (a `uint64`) and the rule list. -/
structure RoundTripper where
  rulesPath : Str
  fixedPairs : List pair
  configRevision : Nat
  rules : List configRule
  deriving DecidableEq, Repr

/-- The rule keys the matcher knows. -/
abbrev kDest : Str := ['d', 'e', 's', 't']
/-- The key `rate`. -/
abbrev kRate : Str := ['r', 'a', 't', 'e']
/-- The key `stage`. -/
abbrev kStage : Str := ['s', 't', 'a', 'g', 'e']
/-- The key `redial`. -/
abbrev kRedial : Str := ['r', 'e', 'd', 'i', 'a', 'l']
/-- The stage `dial`. -/
abbrev sDial : Str := ['d', 'i', 'a', 'l']
/-- The stage `request`. -/
abbrev sRequest : Str := ['r', 'e', 'q', 'u', 'e', 's', 't']
/-- The suffix `%` of a rate. -/
abbrev sPercent : Str := ['%']

/-! ## the map `byKey` -/

/-- Go `byKey[k] = v` on a map kept as a list of entries with distinct keys. -/
def mapSet : List pair → Str → Str → List pair
  | [], k, v => [⟨k, v⟩]
  | p :: ps, k, v => if p.key = k then ⟨k, v⟩ :: ps else p :: mapSet ps k v

/-- Go `value, ok := byKey[k]`; `none` stands for `ok == false`. -/
def mapGet : List pair → Str → Option Str
  | [], _ => none
  | p :: ps, k => if p.key = k then some p.value else mapGet ps k

/-- Go `delete(byKey, k)`. -/
def mapDelete (m : List pair) (k : Str) : List pair :=
  m.filter (fun p => p.key ≠ k)

/-- One step of insertion sort with the order of `sort.Slice`'s less function,
`pairs[i].key < pairs[j].key`. -/
def insertPair (a : pair) : List pair → List pair
  | [] => [a]
  | b :: bs => if strLess a.key b.key then a :: b :: bs else b :: insertPair a bs

/-- Go `sort.Slice(pairs, func(i, j int) bool { return pairs[i].key < pairs[j].key })`;
the keys of a map are distinct, so the result does not depend on the sorting algorithm. -/
def sortPairs : List pair → List pair
  | [] => []
  | a :: as => insertPair a (sortPairs as)

/-! ## loadRules -/

/-- The inner loop of `loadRules` over the tokens of one line, filling `byKey`. -/
def parseParts : List Str → List pair → Except Err (List pair)
  | [], byKey => .ok byKey
  | p :: ps, byKey =>
    match IndexByte p '=' with
    | none => .error .malformedPair
    | some idx =>
      let key := p.take idx
      let value := p.drop (idx + 1)
      if key = kRate then
        match (ParseInt (TrimSuffix value sPercent)).2 with
        | some e => .error (.num e)
        | none => parseParts ps (mapSet byKey key value)
      else parseParts ps (mapSet byKey key value)

/-- The loop of `loadRules` over `rt.fixedPairs`; `none` stands for `continue Rule`
(the line is skipped), otherwise the map after the deletions. -/
def applyFixed : List pair → List pair → Option (List pair)
  | [], byKey => some byKey
  | p :: ps, byKey =>
    match mapGet byKey p.key with
    | some value =>
      if value ≠ p.value then none else applyFixed ps (mapDelete byKey p.key)
    | none => applyFixed ps (mapDelete byKey p.key)

/-- The outer loop of `loadRules` over the lines, appending to `rules`. -/
def loadLines (fixedPairs : List pair) : List Str → List configRule → Except Err (List configRule)
  | [], rules => .ok rules
  | line :: rest, rules =>
    match parseParts (Split line ' ') [] with
    | .error e => .error e
    | .ok byKey =>
      match applyFixed fixedPairs byKey with
      | none => loadLines fixedPairs rest rules
      | some byKey1 => loadLines fixedPairs rest (rules ++ [⟨sortPairs byKey1⟩])

/-- Go `(*RoundTripper).loadRules`: the state after the call and the error returned
(`none` for `nil`). -/
def loadRules (rt : RoundTripper) (fs : FS) : RoundTripper × Option Err :=
  match fs rt.rulesPath with
  | .error e => (rt, some (.read e))
  | .ok b =>
    match loadLines rt.fixedPairs (Split (TrimSpace b) '\n') [] with
    | .error e => (rt, some e)
    | .ok rules =>
      (⟨rt.rulesPath, rt.fixedPairs, (rt.configRevision + 1) % 2 ^ 64, rules⟩, none)

/-- Go `(*RoundTripper).handleConfigUpdates`, one event: an event for another path is
ignored, an event for the rule file reloads it (the error is only logged). -/
def handleEvent (rt : RoundTripper) (evPath : Str) (fs : FS) : RoundTripper :=
  if evPath ≠ rt.rulesPath then rt else (loadRules rt fs).1

/-- Go `(*RoundTripper).handleConfigUpdates`: the loop over the events of `notifyChan`,
each given with the file system as it is when the event is handled. -/
def handleConfigUpdates (rt : RoundTripper) : List (Str × FS) → RoundTripper
  | [] => rt
  | ev :: evs => handleConfigUpdates (handleEvent rt ev.1 ev.2) evs

/-! ## NewRoundTripper -/

/-- The loop of `NewRoundTripper` over the `pairs` arguments, appending to `fixedPairs`. -/
def parseFixedPairs : List Str → List pair → Except Err (List pair)
  | [], fixedPairs => .ok fixedPairs
  | p :: ps, fixedPairs =>
    match IndexByte p '=' with
    | none => .error .malformedPair
    | some idx => parseFixedPairs ps (fixedPairs ++ [⟨p.take idx, p.drop (idx + 1)⟩])

/-- The struct literal `&RoundTripper{fixedPairs: ..., rulesPath: ...}` of `NewRoundTripper`:
`configRevision` and `rules` have their zero values. -/
def freshRoundTripper (rulesPath : Str) (fixedPairs : List pair) : RoundTripper :=
  ⟨rulesPath, fixedPairs, 0, []⟩

/-- Go `NewRoundTripper(rulesPath, pairs...)`; `watchOk` tells whether `notify.Watch`
succeeded, `fs` is the file system at the time of the initial load. -/
def NewRoundTripper (rulesPath : Str) (pairs : List Str) (watchOk : Bool) (fs : FS) :
    Except Err RoundTripper :=
  match parseFixedPairs pairs [] with
  | .error e => .error e
  | .ok fixedPairs =>
    if !watchOk then .error .watch
    else
      match loadRules (freshRoundTripper rulesPath fixedPairs) fs with
      | (rt, some err) => if !osIsNotExist err then .error err else .ok rt
      | (rt, none) => .ok rt

/-! ## failCommon -/

/-- Go `float32(rate)` for an `int64`: the nearest `float32` (ties to even), which is
again an integer. Integers below `2 ^ 24` in magnitude are exact. -/
def float32OfInt64 (n : Int) : Int :=
  let a := n.natAbs
  if a < 2 ^ 24 then n
  else
    let e := Nat.log2 a - 23
    let q := a / 2 ^ e
    let r := a % 2 ^ e
    let half := 2 ^ (e - 1)
    let q1 := if r > half ∨ (r = half ∧ q % 2 = 1) then q + 1 else q
    if n < 0 then -((q1 * 2 ^ e : Nat) : Int) else ((q1 * 2 ^ e : Nat) : Int)

/-- What `failCommon` does to the world around it: how many samples it has drawn from
the shared random source, and how often it has called `CloseIdleConnections` on the
underlying transport. -/
structure Env where
  drawn : Nat
  closed : Nat
  deriving DecidableEq, Repr

/-- How the inner loop of `failCommon` leaves a rule: all pairs passed (`return true`),
`continue Rule`, or `log.Fatalf`. -/
inductive Verdict
  | matched
  | abandoned
  | fatal
  deriving DecidableEq, Repr

/-- The inner loop of `failCommon` over the pairs of one rule. `rnd i` is the value of
the `i`-th `rand.Float32() * 100` of the run (a `float32`, taken as the rational it is). -/
def matchPairs (stage dest : Str) (rnd : Nat → ℚ) : List pair → Env → Verdict × Env
  | [], env => (.matched, env)
  | p :: ps, env =>
    if p.key = kDest then
      if p.value ≠ dest then (.abandoned, env) else matchPairs stage dest rnd ps env
    else if p.key = kRate then
      let rate := (ParseInt (TrimSuffix p.value sPercent)).1
      if rnd env.drawn < (float32OfInt64 rate : ℚ) then
        matchPairs stage dest rnd ps ⟨env.drawn + 1, env.closed⟩
      else (.abandoned, ⟨env.drawn + 1, env.closed⟩)
    else if p.key = kStage then
      if p.value ≠ stage then (.abandoned, env) else matchPairs stage dest rnd ps env
    else if p.key = kRedial then
      if stage = sRequest then matchPairs stage dest rnd ps ⟨env.drawn, env.closed + 1⟩
      else matchPairs stage dest rnd ps env
    else (.fatal, env)

/-- The outer loop of `failCommon` over the rules; `none` stands for the process
ended by `log.Fatalf`. -/
def failRules (stage dest : Str) (rnd : Nat → ℚ) : List configRule → Env → Option Bool × Env
  | [], env => (some false, env)
  | rule :: rest, env =>
    match matchPairs stage dest rnd rule.pairs env with
    | (.matched, env1) => (some true, env1)
    | (.abandoned, env1) => failRules stage dest rnd rest env1
    | (.fatal, env1) => (none, env1)

/-- Go `(*RoundTripper).failCommon(stage, dest)`. -/
def failCommon (rt : RoundTripper) (stage dest : Str) (rnd : Nat → ℚ) (env : Env) :
    Option Bool × Env :=
  failRules stage dest rnd rt.rules env

/-- Go `(*RoundTripper).failDial(network, addr)`. -/
def failDial (rt : RoundTripper) (_network addr : Str) (rnd : Nat → ℚ) (env : Env) :
    Option Bool × Env :=
  failCommon rt sDial addr rnd env

/-- Go `(*RoundTripper).failRequest(req)`, with `host` for `req.URL.Host`. -/
def failRequest (rt : RoundTripper) (host : Str) (rnd : Nat → ℚ) (env : Env) :
    Option Bool × Env :=
  failCommon rt sRequest host rnd env

/-- The ways `RoundTrip` and the `DialContext` hook end: the synthetic error, the call
handed on to the underlying transport or dialer, or the process ended by `log.Fatalf`. -/
inductive Handled
  | failedByFlakyhttp
  | delegated
  | fatal
  deriving DecidableEq, Repr

/-- Go `(*RoundTripper).RoundTrip(req)`, with `host` for `req.URL.Host`. -/
def RoundTrip (rt : RoundTripper) (host : Str) (rnd : Nat → ℚ) (env : Env) : Handled × Env :=
  match failRequest rt host rnd env with
  | (some true, env1) => (.failedByFlakyhttp, env1)
  | (some false, env1) => (.delegated, env1)
  | (none, env1) => (.fatal, env1)

/-- The `tr.DialContext` hook installed by `NewRoundTripper`. -/
def DialContext (rt : RoundTripper) (network addr : Str) (rnd : Nat → ℚ) (env : Env) :
    Handled × Env :=
  match failDial rt network addr rnd env with
  | (some true, env1) => (.failedByFlakyhttp, env1)
  | (some false, env1) => (.delegated, env1)
  | (none, env1) => (.fatal, env1)

/-! ## Notions used to state the properties -/

/-- The error that the token loop of `loadRules` raises on the token `p`, if any: a token
without `'='` is malformed, and a `rate` token needs a value that `ParseInt` accepts. -/
def tokenError (p : Str) : Option Err :=
  match IndexByte p '=' with
  | none => some .malformedPair
  | some idx =>
    if p.take idx = kRate then
      (ParseInt (TrimSuffix (p.drop (idx + 1)) sPercent)).2.map Err.num
    else none

/-- File content that is well formed for `loadRules`: no token of any line raises an error. -/
def wellFormed (b : Str) : Prop :=
  ∀ line ∈ Split (TrimSpace b) '\n', ∀ p ∈ Split line ' ', tokenError p = none

instance (b : Str) : Decidable (wellFormed b) := by
  unfold wellFormed; infer_instance

/-- A state with the one rule `dest=a` at revision 3. -/
def c1State : RoundTripper := ⟨['r'], [], 3, [⟨[⟨kDest, ['a']⟩]⟩]⟩

/-- A rule file whose last line, after a valid one, has a rate that does not parse:
`dest=b`, newline, `rate=x`. -/
def c1Bad : FS :=
  fun _ => .ok ['d', 'e', 's', 't', '=', 'b', '\n', 'r', 'a', 't', 'e', '=', 'x']

/-- The rule file `dest=b`. -/
def c1Good : FS := fun _ => .ok ['d', 'e', 's', 't', '=', 'b']

/-- The number of events of the watch loop that lead to a successful load from the state
`rt`: events for the rule file's path whose file content `loadRules` accepts. -/
def successfulLoads (rt : RoundTripper) (evs : List (Str × FS)) : Nat :=
  evs.countP (fun ev => decide (ev.1 = rt.rulesPath ∧ (loadRules rt ev.2).2 = none))

/-- An event for the rule file `r` with the well-formed content `dest=b`. -/
def c10Good : Str × FS := (['r'], c1Good)

/-- An event for the rule file `r` with the content of `c1Bad`, which does not parse. -/
def c10Bad : Str × FS := (['r'], c1Bad)

/-- An event for another path, `x`, in the watched directory. -/
def c10Other : Str × FS := (['x'], c1Good)

/-- The body of the outer loop of `loadRules` for one line, as a function of the line
alone: the rule the line contributes, `none` when the line is skipped. -/
def lineRule (F : List pair) (line : Str) : Option configRule :=
  match parseParts (Split line ' ') [] with
  | .error _ => none
  | .ok byKey => (applyFixed F byKey).map (fun m => ⟨sortPairs m⟩)

/-- The key `tag` of an application-specific pair. -/
abbrev kTag : Str := ['t', 'a', 'g']
/-- The value `node1`. -/
abbrev vNode1 : Str := ['n', 'o', 'd', 'e', '1']
/-- The value `node2`. -/
abbrev vNode2 : Str := ['n', 'o', 'd', 'e', '2']
/-- The rule line `tag=node1 rate=100%`. -/
def lineNode1 : Str :=
  ['t', 'a', 'g', '=', 'n', 'o', 'd', 'e', '1', ' ', 'r', 'a', 't', 'e', '=', '1', '0', '0', '%']
/-- The rule line `tag=node2 rate=100%`. -/
def lineNode2 : Str :=
  ['t', 'a', 'g', '=', 'n', 'o', 'd', 'e', '2', ' ', 'r', 'a', 't', 'e', '=', '1', '0', '0', '%']
/-- The map `byKey` that the token loop builds for `lineNode1`. -/
def byKeyNode1 : List pair := [⟨kTag, vNode1⟩, ⟨kRate, ['1', '0', '0', '%']⟩]

/-- The keys that `failCommon` has a case for. -/
def knownKey (k : Str) : Prop := k = kDest ∨ k = kRate ∨ k = kStage ∨ k = kRedial

instance (k : Str) : Decidable (knownKey k) := by
  unfold knownKey; infer_instance

/-- A rule all of whose keys are among `dest`, `rate`, `stage`, `redial`. -/
def knownKeys (ps : List pair) : Prop := ∀ p ∈ ps, knownKey p.key

/-- The integer `R` of a rate pair with the given value, as `failCommon` computes it. -/
def rateOf (value : Str) : Int := (ParseInt (TrimSuffix value sPercent)).1

/-- The number of `rate` pairs in a list of pairs: the samples drawn when all are visited. -/
def rateCount (ps : List pair) : Nat := ps.countP (fun p => decide (p.key = kRate))

/-- The number of `redial` pairs in a list of pairs. -/
def redialCount (ps : List pair) : Nat := ps.countP (fun p => decide (p.key = kRedial))

/-- The samples are in `[0, 100)`, the range of `rand.Float32() * 100`. -/
def inRange (rnd : Nat → ℚ) : Prop := ∀ i, 0 ≤ rnd i ∧ rnd i < 100

/-- A pair is satisfied, as the claim words it: a `dest` pair iff its value is the
destination, a `stage` pair iff its value is the current stage, a `rate` pair iff the
sample `s` drawn for it is below the rate, a `redial` pair always. -/
def pairSatisfied (stage dest : Str) (s : ℚ) (p : pair) : Prop :=
  (p.key = kDest → p.value = dest) ∧
  (p.key = kStage → p.value = stage) ∧
  (p.key = kRate → s < (rateOf p.value : ℚ))

/-- All pairs of a rule are satisfied when its evaluation starts with `n` samples drawn:
every pair `p` of the rule is satisfied with the sample whose index is `n` plus the number
of `rate` pairs that stand before `p` in the rule. -/
def ruleSatisfied (stage dest : Str) (rnd : Nat → ℚ) (n : Nat) (ps : List pair) : Prop :=
  ∀ pre p post, ps = pre ++ p :: post → pairSatisfied stage dest (rnd (n + rateCount pre)) p

/-- The environment after the pairs `reached` of a rule have been visited from `env`: one
sample per `rate` pair, and at stage `request` one `CloseIdleConnections` per `redial`
pair. -/
def afterPairs (stage : Str) (env : Env) (reached : List pair) : Env :=
  ⟨env.drawn + rateCount reached,
    env.closed + if stage = sRequest then redialCount reached else 0⟩
instance (ps : List pair) : Decidable (knownKeys ps) := by
  unfold knownKeys; infer_instance

/-- A state with the rules `dest=a stage=dial` and `dest=a redial=f stage=request`. -/
def c5State : RoundTripper :=
  ⟨['r'], [], 1,
    [⟨[⟨kDest, ['a']⟩, ⟨kStage, sDial⟩]⟩,
      ⟨[⟨kDest, ['a']⟩, ⟨kRedial, ['f']⟩, ⟨kStage, sRequest⟩]⟩]⟩

/-- The stored rule `dest=D rate=v stage=request`. -/
def rateRule (D v : Str) : configRule := ⟨[⟨kDest, D⟩, ⟨kRate, v⟩, ⟨kStage, sRequest⟩]⟩

/-- A destination without white space. -/
def noSpace (D : Str) : Prop := ∀ c ∈ D, isSpace c = false

instance (D : Str) : Decidable (noSpace D) := by
  unfold noSpace; infer_instance

/-- The value `100%` of a rate pair. -/
abbrev vHundred : Str := ['1', '0', '0', '%']
/-- The value `force` of a redial pair. -/
abbrev vForce : Str := ['f', 'o', 'r', 'c', 'e']

/-- The rule line `dest=D rate=100%`. -/
def lineFull (D : Str) : Str :=
  ['d', 'e', 's', 't', '='] ++ D ++ [' ', 'r', 'a', 't', 'e', '=', '1', '0', '0', '%']

/-- The rule line `dest=D rate=100% stage=dial`. -/
def lineDial (D : Str) : Str :=
  ['d', 'e', 's', 't', '='] ++ D ++
    [' ', 'r', 'a', 't', 'e', '=', '1', '0', '0', '%', ' ', 's', 't', 'a', 'g', 'e', '=',
      'd', 'i', 'a', 'l']

/-- The rule line `dest=D stage=request redial=force`. -/
def lineRedial (D : Str) : Str :=
  ['d', 'e', 's', 't', '='] ++ D ++
    [' ', 's', 't', 'a', 'g', 'e', '=', 'r', 'e', 'q', 'u', 'e', 's', 't', ' ',
      'r', 'e', 'd', 'i', 'a', 'l', '=', 'f', 'o', 'r', 'c', 'e']

/-- The stored rule of `lineFull D`. -/
def ruleFull (D : Str) : configRule := ⟨[⟨kDest, D⟩, ⟨kRate, vHundred⟩]⟩

/-- The stored rule of `lineDial D`. -/
def ruleDial (D : Str) : configRule := ⟨[⟨kDest, D⟩, ⟨kRate, vHundred⟩, ⟨kStage, sDial⟩]⟩

/-- The stored rule of `lineRedial D`. -/
def ruleRedial (D : Str) : configRule :=
  ⟨[⟨kDest, D⟩, ⟨kRedial, vForce⟩, ⟨kStage, sRequest⟩]⟩

/-- Go `type ConfigChangeAwaiter struct{ rt *RoundTripper; oldRevision uint64 }`; the
pointer `rt` is the state that the functions below are given. -/
structure ConfigChangeAwaiter where
  oldRevision : Nat
  deriving DecidableEq, Repr

/-- Go `(*RoundTripper).ConfigChangeAwaiter()`. -/
def RoundTripper.ConfigChangeAwaiter (rt : RoundTripper) : Flakyhttp.ConfigChangeAwaiter :=
  ⟨rt.configRevision⟩

/-- Go `(*ConfigChangeAwaiter).Await(ctx)`: the loop
`for a.rt.configRevision == a.oldRevision { a.rt.configCond.Wait() }`, run against the
states of `rt` that the waiter sees, the state when it takes the lock and the state at
each later wake-up. `some none` is the return of `nil`; `none` says that the waiter is
still waiting after the last of the given states (the context is not looked at). -/
def ConfigChangeAwaiter.Await (a : ConfigChangeAwaiter) : List RoundTripper → Option (Option Err)
  | [] => none
  | rt :: later => if rt.configRevision = a.oldRevision then a.Await later else some none

/-- The states of the `RoundTripper` after each event of a run of the watch loop. -/
def statesAfter (rt : RoundTripper) : List (Str × FS) → List RoundTripper
  | [] => []
  | ev :: evs => handleEvent rt ev.1 ev.2 :: statesAfter (handleEvent rt ev.1 ev.2) evs

/-- A token split at its first `'='`, as the claim words it: the key is the text before
the first `'='`, the value everything after it. -/
def splitAtEq (p : Str) : pair :=
  ⟨p.takeWhile (fun c => decide (c ≠ '=')), (p.dropWhile (fun c => decide (c ≠ '='))).drop 1⟩

/-- The tokens of a file, line after line, in file order. -/
def allTokens (lines : List Str) : List Str :=
  lines.flatMap (fun line => Split line ' ')

/-- The error of the first token, in file order, that raises one. -/
def firstTokenError (lines : List Str) : Option Err :=
  (allTokens lines).findSome? tokenError

/-- The rule line `dest=a=b`. -/
def lineTwoEq : Str := ['d', 'e', 's', 't', '=', 'a', '=', 'b']

/-- The rule line `rate=x foo`: a rate that does not parse, then a token without `'='`. -/
def lineRateThenBare : Str := ['r', 'a', 't', 'e', '=', 'x', ' ', 'f', 'o', 'o']

/-- The rule file with the lines `dest=a` and `dest=b`. -/
def fileTwoRules : Str := ['d', 'e', 's', 't', '=', 'a', '\n', 'd', 'e', 's', 't', '=', 'b']

/-- The rule file with the lines `dest=a` and `dest=b` and a blank line between them. -/
def fileBlankBetween : Str :=
  ['d', 'e', 's', 't', '=', 'a', '\n', '\n', 'd', 'e', 's', 't', '=', 'b']

/-- The rule file with the lines `dest=a` and `dest=b` and a space at the end of the
first line. -/
def fileSpaceAfterLine : Str :=
  ['d', 'e', 's', 't', '=', 'a', ' ', '\n', 'd', 'e', 's', 't', '=', 'b']

/-- The rule file `=foo`: one token with an empty key. -/
def fileEmptyKey : Str := ['=', 'f', 'o', 'o']

/-- The rule file `foo=bar`: one token with a key that the matcher does not know. -/
def fileUnknownKey : Str := ['f', 'o', 'o', '=', 'b', 'a', 'r']

/-- The map step of the token loop for one token: `byKey[key] = value`. -/
def setToken (m : List pair) (p : Str) : List pair :=
  mapSet m (splitAtEq p).key (splitAtEq p).value

/-- The rule line `tag=node1 tag=node2`, with the key `tag` twice. -/
def lineDupTag : Str :=
  ['t', 'a', 'g', '=', 'n', 'o', 'd', 'e', '1', ' ', 't', 'a', 'g', '=', 'n', 'o', 'd', 'e', '2']

/-- The rule line `dest=a rate=5 dest=b`, with the key `dest` twice. -/
def lineDupDest : Str :=
  ['d', 'e', 's', 't', '=', 'a', ' ', 'r', 'a', 't', 'e', '=', '5', ' ', 'd', 'e', 's', 't', '=', 'b']

/-- A pair that, if it is a `rate` pair, has a value that `failCommon` parses without
error. -/
def rateValid (q : pair) : Prop :=
  q.key = kRate → (ParseInt (TrimSuffix q.value sPercent)).2 = none

/-- The rule line `rate=x rate=5`: a rate that does not parse, then one that does. -/
def lineBadThenGoodRate : Str :=
  ['r', 'a', 't', 'e', '=', 'x', ' ', 'r', 'a', 't', 'e', '=', '5']

/-- Pairs in strictly ascending key order, in the order of Go `<` on strings. -/
def ascending (ps : List pair) : Prop :=
  ps.Pairwise (fun a b => strLess a.key b.key = true)

instance (ps : List pair) : Decidable (ascending ps) := by
  unfold ascending; infer_instance

/-- The rule line `dest=h redial=force stage=dial`. -/
def lineRedialDial : Str :=
  ['d', 'e', 's', 't', '=', 'h', ' ', 'r', 'e', 'd', 'i', 'a', 'l', '=', 'f', 'o', 'r', 'c', 'e',
    ' ', 's', 't', 'a', 'g', 'e', '=', 'd', 'i', 'a', 'l']

/-! # Theorems -/

/-! ## Lemmas on the loops of loadRules -/

theorem parseParts_ok_iff (ps : List Str) (m : List pair) :
    (∃ m1, parseParts ps m = .ok m1) ↔ ∀ p ∈ ps, tokenError p = none := by
  induction ps generalizing m with
  | nil => simp [parseParts]
  | cons p ps ih =>
    simp only [parseParts, List.mem_cons, forall_eq_or_imp, tokenError]
    cases hi : IndexByte p '=' with
    | none => simp
    | some idx =>
      simp only []
      by_cases hk : List.take idx p = kRate
      · simp only [hk, if_true]
        cases hp : (ParseInt (TrimSuffix (List.drop (idx + 1) p) sPercent)).2 with
        | none => simpa using ih _
        | some e => simp
      · simp only [hk, if_false, true_and]
        exact ih _

theorem loadLines_append (F : List pair) (lines : List Str) (acc : List configRule) :
    loadLines F lines acc = (loadLines F lines []).map (acc ++ ·) := by
  induction lines generalizing acc with
  | nil => simp [loadLines, Except.map]
  | cons line rest ih =>
    simp only [loadLines]
    cases hp : parseParts (Split line ' ') [] with
    | error e => simp [Except.map]
    | ok byKey =>
      simp only []
      cases hf : applyFixed F byKey with
      | none => simpa using ih acc
      | some m =>
        simp only []
        rw [ih, ih ([] ++ _)]
        cases loadLines F rest [] <;> simp [Except.map]

theorem loadLines_ok_iff (F : List pair) (lines : List Str) (acc : List configRule) :
    (∃ rules, loadLines F lines acc = .ok rules) ↔
      ∀ line ∈ lines, ∀ p ∈ Split line ' ', tokenError p = none := by
  induction lines generalizing acc with
  | nil => simp [loadLines]
  | cons line rest ih =>
    simp only [loadLines, List.mem_cons, forall_eq_or_imp]
    rw [← parseParts_ok_iff _ []]
    cases hp : parseParts (Split line ' ') [] with
    | error e => simp
    | ok byKey =>
      simp only []
      cases hf : applyFixed F byKey with
      | none => simpa using ih acc
      | some m => simpa using ih _

theorem loadRules_error_iff (rt : RoundTripper) (fs : FS) :
    (loadRules rt fs).2 ≠ none ↔
      ((∃ re, fs rt.rulesPath = .error re) ∨
        ∃ b, fs rt.rulesPath = .ok b ∧ ¬ wellFormed b) := by
  unfold loadRules wellFormed
  cases hf : fs rt.rulesPath with
  | error re => simp
  | ok b =>
    simp only [false_or, Except.ok.injEq, exists_eq_left', reduceCtorEq, exists_false]
    rw [← loadLines_ok_iff rt.fixedPairs _ []]
    cases hl : loadLines rt.fixedPairs (Split (TrimSpace b) '\n') [] with
    | error e => simp
    | ok rules => simp

theorem loadRules_error_state (rt : RoundTripper) (fs : FS)
    (h : (loadRules rt fs).2 ≠ none) : (loadRules rt fs).1 = rt := by
  unfold loadRules at h ⊢
  cases hf : fs rt.rulesPath with
  | error re => simp
  | ok b =>
    rw [hf] at h
    simp only [] at h ⊢
    cases hl : loadLines rt.fixedPairs (Split (TrimSpace b) '\n') [] with
    | error e => simp
    | ok rules => rw [hl] at h; simp at h

theorem loadRules_ok_of_wellFormed (rt : RoundTripper) (fs : FS) (b : Str)
    (hf : fs rt.rulesPath = .ok b) (hw : wellFormed b) :
    ∃ rules, loadLines rt.fixedPairs (Split (TrimSpace b) '\n') [] = .ok rules ∧
      loadRules rt fs =
        (⟨rt.rulesPath, rt.fixedPairs, (rt.configRevision + 1) % 2 ^ 64, rules⟩, none) := by
  obtain ⟨rules, hr⟩ := (loadLines_ok_iff rt.fixedPairs _ []).2 hw
  exact ⟨rules, hr, by simp [loadRules, hf, hr]⟩

/-! ## C1 -/

/-- C1: `loadRules` is atomic on failure. It returns an error exactly when the file cannot
be read or some token of some line (the last line after valid ones included) has no `'='`
or is a `rate` with a value that does not parse; whenever it returns an error the whole
state, so the rule list and `configRevision`, is what it was before the call; and a later
`loadRules` on well-formed content succeeds, installs the rules of that content and
moves the revision on by one. -/
theorem loadRules_atomic_on_failure (rt : RoundTripper) (fs : FS) :
    ((loadRules rt fs).2 ≠ none ↔
      ((∃ re, fs rt.rulesPath = .error re) ∨
        ∃ b, fs rt.rulesPath = .ok b ∧
          ∃ line ∈ Split (TrimSpace b) '\n', ∃ p ∈ Split line ' ', tokenError p ≠ none)) ∧
    ((loadRules rt fs).2 ≠ none →
      (loadRules rt fs).1 = rt ∧
      (loadRules rt fs).1.rules = rt.rules ∧
      (loadRules rt fs).1.configRevision = rt.configRevision ∧
      ∀ (fs2 : FS) (b2 : Str), fs2 rt.rulesPath = .ok b2 → wellFormed b2 →
        ∃ rules, loadLines rt.fixedPairs (Split (TrimSpace b2) '\n') [] = .ok rules ∧
          loadRules (loadRules rt fs).1 fs2 =
            (⟨rt.rulesPath, rt.fixedPairs, (rt.configRevision + 1) % 2 ^ 64, rules⟩,
              none)) := by
  refine ⟨?_, fun h => ?_⟩
  · rw [loadRules_error_iff]
    simp only [wellFormed, not_forall, exists_prop, ne_eq]
  · have hs := loadRules_error_state rt fs h
    refine ⟨hs, by rw [hs], by rw [hs], fun fs2 b2 hf hw => ?_⟩
    rw [hs]
    exact loadRules_ok_of_wellFormed rt fs2 b2 hf hw

/-- C1 at a concrete input: on the state `c1State`, loading `c1Bad` returns an error and
leaves the state as it was, and loading the well-formed `c1Good` afterwards succeeds
and moves the revision from 3 to 4. -/
theorem loadRules_atomic_on_failure_witness :
    (loadRules c1State c1Bad).2 ≠ none ∧
    wellFormed ['d', 'e', 's', 't', '=', 'b'] ∧
    (loadRules c1State c1Bad).1 = c1State ∧
    ∃ rules, loadLines [] (Split (TrimSpace ['d', 'e', 's', 't', '=', 'b']) '\n') [] = .ok rules ∧
      loadRules (loadRules c1State c1Bad).1 c1Good = (⟨['r'], [], 4, rules⟩, none) :=
  ⟨by decide, by decide,
    ((loadRules_atomic_on_failure c1State c1Bad).2 (by decide)).1,
    ((loadRules_atomic_on_failure c1State c1Bad).2 (by decide)).2.2.2 c1Good
      ['d', 'e', 's', 't', '=', 'b'] rfl (by decide)⟩

/-! ## C2 -/

theorem TrimSpace_whitespace (b : Str) (hb : ∀ c ∈ b, isSpace c = true) : TrimSpace b = [] := by
  have : b.dropWhile isSpace = [] := by
    rw [List.dropWhile_eq_nil_iff]; exact hb
  simp [TrimSpace, this]

theorem loadRules_whitespace_only (rt : RoundTripper) (fs : FS) (b : Str)
    (hf : fs rt.rulesPath = .ok b) (hb : ∀ c ∈ b, isSpace c = true) :
    loadRules rt fs = (rt, some .malformedPair) := by
  simp [loadRules, hf, TrimSpace_whitespace b hb, Split, loadLines, parseParts, IndexByte]

/-- C2 (the code departs from the claim): an empty rule file, and likewise one holding only
white space, is not loaded as the empty rule set. `strings.Split` of the empty string is
the one-element list holding the empty line, whose single empty token has no `'='`, so
`loadRules` returns the malformed-pair error and leaves the state as it was, for every
state; `NewRoundTripper` on an empty file fails with that error; and after the failed load
on `c1State` the old rule `dest=a` is still in force (`failCommon` returns true). -/
theorem empty_rule_file_is_rejected :
    (∀ rt : RoundTripper, loadRules rt (fun _ => .ok []) = (rt, some .malformedPair)) ∧
    (∀ rt : RoundTripper,
      loadRules rt (fun _ => .ok [' ', '\n', '\t', '\n']) = (rt, some .malformedPair)) ∧
    NewRoundTripper ['r'] [] true (fun _ => .ok []) = .error .malformedPair ∧
    failCommon (loadRules c1State (fun _ => .ok [])).1 sDial ['a'] (fun _ => 0) ⟨0, 0⟩ =
      (some true, ⟨0, 0⟩) := by
  refine ⟨fun rt => loadRules_whitespace_only rt _ [] rfl (by simp),
    fun rt => loadRules_whitespace_only rt _ _ rfl (by decide), by rfl, by decide⟩

/-! ## C3 -/

/-- C3: when the fixed pairs are well formed, the watch is set up and the rule file does
not exist, `NewRoundTripper` returns an instance with no rules at revision 0, on which
`failCommon` returns false for every stage and destination and leaves the environment
untouched (no sample drawn, no `CloseIdleConnections`); and every error of the initial
load other than not-exist is returned by `NewRoundTripper`. -/
theorem NewRoundTripper_missing_file (rulesPath : Str) (pairs : List Str) (fixed : List pair)
    (fs : FS) (hfix : parseFixedPairs pairs [] = .ok fixed)
    (hmiss : fs rulesPath = .error .notExist) :
    NewRoundTripper rulesPath pairs true fs = .ok ⟨rulesPath, fixed, 0, []⟩ ∧
    (∀ (stage dest : Str) (rnd : Nat → ℚ) (env : Env),
      failCommon ⟨rulesPath, fixed, 0, []⟩ stage dest rnd env = (some false, env)) ∧
    (∀ (fs2 : FS) (e : Err),
      (loadRules (freshRoundTripper rulesPath fixed) fs2).2 = some e →
      e ≠ .read .notExist →
      NewRoundTripper rulesPath pairs true fs2 = .error e) := by
  refine ⟨?_, fun _ _ _ _ => rfl, fun fs2 e he hne => ?_⟩
  · simp [NewRoundTripper, hfix, loadRules, freshRoundTripper, hmiss, osIsNotExist]
  · have hn : osIsNotExist e = false := by
      cases e with
      | read re => cases re <;> simp_all [osIsNotExist]
      | _ => rfl
    simp only [NewRoundTripper, hfix]
    cases hl : loadRules (freshRoundTripper rulesPath fixed) fs2 with
    | mk rt oe =>
      rw [hl] at he
      simp only [] at he
      subst he
      simp [hn]

/-- C3 at a concrete input: the fixed pair `t=2` and a file system without the rule file. -/
theorem NewRoundTripper_missing_file_witness :
    NewRoundTripper ['r'] [['t', '=', '2']] true (fun _ => .error .notExist) =
      .ok ⟨['r'], [⟨['t'], ['2']⟩], 0, []⟩ ∧
    failCommon ⟨['r'], [⟨['t'], ['2']⟩], 0, []⟩ sRequest ['h'] (fun _ => 0) ⟨0, 0⟩ =
      (some false, ⟨0, 0⟩) ∧
    NewRoundTripper ['r'] [['t', '=', '2']] true (fun _ => .error .other) =
      .error (.read .other) :=
  ⟨(NewRoundTripper_missing_file ['r'] [['t', '=', '2']] [⟨['t'], ['2']⟩]
      (fun _ => .error .notExist) rfl rfl).1,
    (NewRoundTripper_missing_file ['r'] [['t', '=', '2']] [⟨['t'], ['2']⟩]
      (fun _ => .error .notExist) rfl rfl).2.1 sRequest ['h'] (fun _ => 0) ⟨0, 0⟩,
    (NewRoundTripper_missing_file ['r'] [['t', '=', '2']] [⟨['t'], ['2']⟩]
      (fun _ => .error .notExist) rfl rfl).2.2 (fun _ => .error .other) (.read .other)
      rfl (by decide)⟩

/-! ## C10 -/

theorem loadRules_frame (rt : RoundTripper) (fs : FS) :
    (loadRules rt fs).1.rulesPath = rt.rulesPath ∧
    (loadRules rt fs).1.fixedPairs = rt.fixedPairs := by
  unfold loadRules
  cases fs rt.rulesPath with
  | error e => simp
  | ok b =>
    simp only []
    cases loadLines rt.fixedPairs (Split (TrimSpace b) '\n') [] <;> simp

theorem loadRules_error_congr (rt rt2 : RoundTripper) (fs : FS)
    (hp : rt2.rulesPath = rt.rulesPath) (hf : rt2.fixedPairs = rt.fixedPairs) :
    (loadRules rt2 fs).2 = (loadRules rt fs).2 := by
  unfold loadRules
  rw [hp, hf]
  cases fs rt.rulesPath with
  | error e => simp
  | ok b =>
    simp only []
    cases loadLines rt.fixedPairs (Split (TrimSpace b) '\n') [] <;> simp

theorem loadRules_revision_ok (rt : RoundTripper) (fs : FS) (h : (loadRules rt fs).2 = none) :
    (loadRules rt fs).1.configRevision = (rt.configRevision + 1) % 2 ^ 64 := by
  unfold loadRules at h ⊢
  cases hf : fs rt.rulesPath with
  | error e => rw [hf] at h; simp at h
  | ok b =>
    rw [hf] at h
    simp only [] at h ⊢
    cases hl : loadLines rt.fixedPairs (Split (TrimSpace b) '\n') [] with
    | error e => rw [hl] at h; simp at h
    | ok rules => simp

theorem handleEvent_frame (rt : RoundTripper) (ev : Str × FS) :
    (handleEvent rt ev.1 ev.2).rulesPath = rt.rulesPath ∧
    (handleEvent rt ev.1 ev.2).fixedPairs = rt.fixedPairs := by
  unfold handleEvent
  split
  · exact ⟨rfl, rfl⟩
  · exact loadRules_frame rt ev.2

theorem handleEvent_revision (rt : RoundTripper) (ev : Str × FS) :
    (handleEvent rt ev.1 ev.2).configRevision =
      if ev.1 = rt.rulesPath ∧ (loadRules rt ev.2).2 = none
      then (rt.configRevision + 1) % 2 ^ 64 else rt.configRevision := by
  unfold handleEvent
  by_cases hp : ev.1 = rt.rulesPath
  · by_cases hl : (loadRules rt ev.2).2 = none
    · simp [hp, hl, loadRules_revision_ok rt ev.2 hl]
    · simp [hp, hl, loadRules_error_state rt ev.2 hl]
  · simp [hp]

theorem successfulLoads_congr (rt rt2 : RoundTripper) (evs : List (Str × FS))
    (hp : rt2.rulesPath = rt.rulesPath) (hf : rt2.fixedPairs = rt.fixedPairs) :
    successfulLoads rt2 evs = successfulLoads rt evs := by
  unfold successfulLoads
  congr 1
  funext ev
  rw [hp, loadRules_error_congr rt rt2 ev.2 hp hf]

theorem handleConfigUpdates_revision (rt : RoundTripper) (evs : List (Str × FS)) :
    (handleConfigUpdates rt evs).configRevision =
      (rt.configRevision + successfulLoads rt evs) % 2 ^ 64 ∨
    (successfulLoads rt evs = 0 ∧
      (handleConfigUpdates rt evs).configRevision = rt.configRevision) := by
  induction evs generalizing rt with
  | nil => right; exact ⟨rfl, rfl⟩
  | cons ev evs ih =>
    have hfr := handleEvent_frame rt ev
    have hrev := handleEvent_revision rt ev
    have hc := successfulLoads_congr rt (handleEvent rt ev.1 ev.2) evs hfr.1 hfr.2
    have hs : successfulLoads rt (ev :: evs) =
        successfulLoads rt evs +
          (if ev.1 = rt.rulesPath ∧ (loadRules rt ev.2).2 = none then 1 else 0) := by
      simp only [successfulLoads, List.countP_cons, decide_eq_true_eq]
    simp only [handleConfigUpdates]
    by_cases hev : ev.1 = rt.rulesPath ∧ (loadRules rt ev.2).2 = none
    · rw [if_pos hev] at hrev hs
      left
      rcases ih (handleEvent rt ev.1 ev.2) with h | ⟨h0, h⟩
      · rw [h, hrev, hc, hs]; omega
      · rw [h, hrev, hs, ← hc, h0]
    · rw [if_neg hev] at hrev hs
      rcases ih (handleEvent rt ev.1 ev.2) with h | ⟨h0, h⟩
      · left; rw [h, hrev, hc, hs]; rfl
      · right; rw [hs, ← hc, h0, h, hrev]; exact ⟨rfl, rfl⟩

/-- C10: the revision counter. A freshly built `RoundTripper` has `configRevision` 0;
a successful `loadRules` moves it to its successor modulo `2 ^ 64`, whatever the new and
old rule lists are; a failed `loadRules` and a watch event for another path leave it as
it is; so a run of the watch loop from a state whose revision is a `uint64` ends at the
old revision plus the number of successful loads, modulo `2 ^ 64`, and from a fresh
state after `n < 2 ^ 64` successful loads at `n`. -/
theorem configRevision_counts_successful_loads :
    (∀ (rulesPath : Str) (fixed : List pair),
      (freshRoundTripper rulesPath fixed).configRevision = 0) ∧
    (∀ (rt : RoundTripper) (fs : FS), (loadRules rt fs).2 = none →
      (loadRules rt fs).1.configRevision = (rt.configRevision + 1) % 2 ^ 64) ∧
    (∀ (rt : RoundTripper) (fs : FS), (loadRules rt fs).2 ≠ none →
      (loadRules rt fs).1.configRevision = rt.configRevision) ∧
    (∀ (rt : RoundTripper) (evPath : Str) (fs : FS), evPath ≠ rt.rulesPath →
      handleEvent rt evPath fs = rt) ∧
    (∀ (rt : RoundTripper) (evs : List (Str × FS)), rt.configRevision < 2 ^ 64 →
      (handleConfigUpdates rt evs).configRevision =
        (rt.configRevision + successfulLoads rt evs) % 2 ^ 64) ∧
    (∀ (rulesPath : Str) (fixed : List pair) (evs : List (Str × FS)),
      successfulLoads (freshRoundTripper rulesPath fixed) evs < 2 ^ 64 →
      (handleConfigUpdates (freshRoundTripper rulesPath fixed) evs).configRevision =
        successfulLoads (freshRoundTripper rulesPath fixed) evs) := by
  have key : ∀ (rt : RoundTripper) (evs : List (Str × FS)), rt.configRevision < 2 ^ 64 →
      (handleConfigUpdates rt evs).configRevision =
        (rt.configRevision + successfulLoads rt evs) % 2 ^ 64 := by
    intro rt evs hlt
    rcases handleConfigUpdates_revision rt evs with h | ⟨h0, h⟩
    · exact h
    · rw [h, h0, Nat.add_zero, Nat.mod_eq_of_lt hlt]
  refine ⟨fun _ _ => rfl, loadRules_revision_ok, fun rt fs h => ?_, fun rt p fs h => ?_,
    key, fun rulesPath fixed evs hlt => ?_⟩
  · rw [loadRules_error_state rt fs h]
  · simp [handleEvent, h]
  · rw [key _ _ (by simp [freshRoundTripper])]
    simp only [freshRoundTripper, Nat.zero_add]
    exact Nat.mod_eq_of_lt hlt

/-- C10 at a concrete input: from the fresh state for the rule file `r`, the events
good, bad, other path, good make two successful loads and leave the revision at 2. -/
theorem configRevision_counts_successful_loads_witness :
    successfulLoads (freshRoundTripper ['r'] []) [c10Good, c10Bad, c10Other, c10Good] = 2 ∧
    (handleConfigUpdates (freshRoundTripper ['r'] [])
      [c10Good, c10Bad, c10Other, c10Good]).configRevision = 2 := by
  have h2 : successfulLoads (freshRoundTripper ['r'] [])
      [c10Good, c10Bad, c10Other, c10Good] = 2 := by decide
  refine ⟨h2, ?_⟩
  have h := configRevision_counts_successful_loads.2.2.2.2.2 ['r'] []
    [c10Good, c10Bad, c10Other, c10Good] (by rw [h2]; decide)
  rw [h, h2]

/-! ## C4 -/

theorem mapGet_mapDelete (m : List pair) (k k2 : Str) :
    mapGet (mapDelete m k) k2 = if k2 = k then none else mapGet m k2 := by
  induction m with
  | nil => simp [mapDelete, mapGet]
  | cons p ps ih =>
    have hcons : mapDelete (p :: ps) k =
        if p.key = k then mapDelete ps k else p :: mapDelete ps k := by
      by_cases hp : p.key = k <;> simp [mapDelete, List.filter_cons, hp]
    rw [hcons]
    by_cases hp : p.key = k
    · rw [if_pos hp, ih]
      by_cases h2 : k2 = k
      · simp [h2]
      · have h3 : ¬ p.key = k2 := fun h => h2 (h.symm.trans hp)
        simp [h2, mapGet, h3]
    · rw [if_neg hp]
      simp only [mapGet, ih]
      by_cases h3 : p.key = k2
      · have h2 : ¬ k2 = k := fun h => hp (h3.trans h)
        simp [h3, h2]
      · simp [h3]

theorem applyFixed_none_iff (F byKey : List pair) :
    applyFixed F byKey = none ↔
      ∃ pre p post, F = pre ++ p :: post ∧ (∀ q ∈ pre, q.key ≠ p.key) ∧
        ∃ v, mapGet byKey p.key = some v ∧ v ≠ p.value := by
  induction F generalizing byKey with
  | nil => simp [applyFixed]
  | cons q F ih =>
    have step : (∃ pre p post, F = pre ++ p :: post ∧ (∀ q1 ∈ pre, q1.key ≠ p.key) ∧
          ∃ v, mapGet (mapDelete byKey q.key) p.key = some v ∧ v ≠ p.value) ↔
        ∃ pre p post, q :: F = (q :: pre) ++ p :: post ∧ (∀ q1 ∈ q :: pre, q1.key ≠ p.key) ∧
          ∃ v, mapGet byKey p.key = some v ∧ v ≠ p.value := by
      constructor
      · rintro ⟨pre, p, post, hF, hpre, v, hv, hne⟩
        rw [mapGet_mapDelete] at hv
        by_cases hk : p.key = q.key
        · simp [hk] at hv
        · simp only [hk, if_false] at hv
          refine ⟨pre, p, post, by rw [hF]; rfl, ?_, v, hv, hne⟩
          intro q1 hq1
          rcases List.mem_cons.1 hq1 with h | h
          · rw [h]; exact fun h2 => hk h2.symm
          · exact hpre q1 h
      · rintro ⟨pre, p, post, hF, hpre, v, hv, hne⟩
        have hk : ¬ p.key = q.key := fun h => hpre q (List.mem_cons_self _ _) h.symm
        refine ⟨pre, p, post, List.tail_eq_of_cons_eq hF, fun q1 hq1 =>
          hpre q1 (List.mem_cons_of_mem _ hq1), v, ?_, hne⟩
        rw [mapGet_mapDelete]; simp [hk, hv]
    have split : (∃ pre p post, q :: F = pre ++ p :: post ∧ (∀ q1 ∈ pre, q1.key ≠ p.key) ∧
          ∃ v, mapGet byKey p.key = some v ∧ v ≠ p.value) ↔
        (∃ v, mapGet byKey q.key = some v ∧ v ≠ q.value) ∨
        ∃ pre p post, q :: F = (q :: pre) ++ p :: post ∧ (∀ q1 ∈ q :: pre, q1.key ≠ p.key) ∧
          ∃ v, mapGet byKey p.key = some v ∧ v ≠ p.value := by
      constructor
      · rintro ⟨pre, p, post, hF, hpre, hv⟩
        cases pre with
        | nil =>
          left
          have : q = p := List.head_eq_of_cons_eq hF
          rw [this]; exact hv
        | cons q0 pre =>
          right
          have : q = q0 := List.head_eq_of_cons_eq hF
          subst this
          exact ⟨pre, p, post, hF, hpre, hv⟩
      · rintro (hv | ⟨pre, p, post, hF, hpre, hv⟩)
        · exact ⟨[], q, F, rfl, by simp, hv⟩
        · exact ⟨q :: pre, p, post, hF, hpre, hv⟩
    rw [split, ← step, ← ih]
    simp only [applyFixed]
    cases hg : mapGet byKey q.key with
    | none => simp
    | some v =>
      by_cases hv : v = q.value
      · simp [hv]
      · simp [hv]

theorem applyFixed_some (F byKey m : List pair) (h : applyFixed F byKey = some m) :
    m = byKey.filter (fun p => decide (p.key ∉ F.map pair.key)) := by
  induction F generalizing byKey with
  | nil => simp [applyFixed] at h; simp [h]
  | cons q F ih =>
    have next : applyFixed F (mapDelete byKey q.key) = some m := by
      simp only [applyFixed] at h
      cases hg : mapGet byKey q.key with
      | none => rw [hg] at h; exact h
      | some v =>
        rw [hg] at h
        by_cases hv : v = q.value
        · simpa [hv] using h
        · simp [hv] at h
    rw [ih _ next, mapDelete, List.filter_filter]
    congr 1
    funext p
    simp only [List.map_cons, List.mem_cons, not_or, ne_eq]
    by_cases h1 : p.key = q.key <;> by_cases h2 : p.key ∈ F.map pair.key <;> simp [h1, h2]

theorem insertPair_perm (a : pair) (l : List pair) : (insertPair a l).Perm (a :: l) := by
  induction l with
  | nil => exact List.Perm.refl _
  | cons b bs ih =>
    simp only [insertPair]
    split
    · exact List.Perm.refl _
    · exact (List.Perm.cons b ih).trans (List.Perm.swap a b bs)

theorem sortPairs_perm (l : List pair) : (sortPairs l).Perm l := by
  induction l with
  | nil => exact List.Perm.refl _
  | cons a as ih => exact (insertPair_perm a _).trans (List.Perm.cons a ih)

theorem loadLines_eq_filterMap (F : List pair) (lines : List Str) (rules : List configRule)
    (h : loadLines F lines [] = .ok rules) : rules = lines.filterMap (lineRule F) := by
  induction lines generalizing rules with
  | nil => simp [loadLines] at h; simp [h]
  | cons line rest ih =>
    simp only [loadLines] at h
    simp only [List.filterMap_cons, lineRule]
    cases hp : parseParts (Split line ' ') [] with
    | error e => rw [hp] at h; simp at h
    | ok byKey =>
      rw [hp] at h
      simp only [] at h ⊢
      cases hf : applyFixed F byKey with
      | none => rw [hf] at h; simpa using ih rules h
      | some m =>
        rw [hf] at h
        simp only [Option.map_some'] at h ⊢
        rw [loadLines_append] at h
        cases hr : loadLines F rest [] with
        | error e => rw [hr] at h; simp [Except.map] at h
        | ok rs =>
          rw [hr] at h
          simp only [Except.map, List.nil_append, Except.ok.injEq] at h
          rw [← h, ih rs hr]
          rfl

/-- C4, amended: fixed-pair scoping at parse time. For every list of fixed pairs `F`:
a file whose tokens are all well formed loads without error, whatever `F` drops, and the
rules of a successful load are the rules contributed by the single lines, in file order,
each line by itself (`lineRule`), wherever it stands; a line that parses to the
map `byKey` contributes no rule exactly when some pair `(k, v)` of `F` that is the first
pair of `F` with key `k` finds key `k` in the line with a value other than `v`, and for `F`
with pairwise distinct keys exactly when some pair of `F` does; otherwise it contributes
one rule, made of the pairs of the line whose key is not a key of `F`, in sorted order;
no stored rule contains a key of `F`; and with `F = [tag=node2]` the line
`tag=node1 rate=100%` is not stored while `tag=node2 rate=100%` is stored as `rate=100%`. -/
theorem fixed_pair_scoping (F : List pair) :
    (∀ (lines : List Str), (∀ line ∈ lines, ∀ p ∈ Split line ' ', tokenError p = none) →
      loadLines F lines [] = .ok (lines.filterMap (lineRule F))) ∧
    (∀ (lines : List Str) (rules : List configRule), loadLines F lines [] = .ok rules →
      rules = lines.filterMap (lineRule F) ∧
      ∀ r ∈ rules, ∀ p ∈ r.pairs, p.key ∉ F.map pair.key) ∧
    (∀ (line : Str) (byKey : List pair), parseParts (Split line ' ') [] = .ok byKey →
      (lineRule F line = none ↔
        ∃ pre p post, F = pre ++ p :: post ∧ (∀ q ∈ pre, q.key ≠ p.key) ∧
          ∃ v, mapGet byKey p.key = some v ∧ v ≠ p.value) ∧
      ((F.map pair.key).Nodup →
        (lineRule F line = none ↔
          ∃ p ∈ F, ∃ v, mapGet byKey p.key = some v ∧ v ≠ p.value)) ∧
      (∀ r, lineRule F line = some r →
        r.pairs = sortPairs (byKey.filter (fun p => decide (p.key ∉ F.map pair.key))) ∧
        ∀ p, p ∈ r.pairs ↔ (p ∈ byKey ∧ p.key ∉ F.map pair.key))) ∧
    (loadLines [⟨kTag, vNode2⟩] [lineNode1, lineNode2] [] =
        .ok [⟨[⟨kRate, ['1', '0', '0', '%']⟩]⟩] ∧
      loadLines [⟨kTag, vNode2⟩] [lineNode2, lineNode1] [] =
        .ok [⟨[⟨kRate, ['1', '0', '0', '%']⟩]⟩]) := by
  have kept : ∀ (line : Str) (byKey : List pair), parseParts (Split line ' ') [] = .ok byKey →
      ∀ r, lineRule F line = some r →
        r.pairs = sortPairs (byKey.filter (fun p => decide (p.key ∉ F.map pair.key))) := by
    intro line byKey hp r hr
    simp only [lineRule, hp] at hr
    cases hf : applyFixed F byKey with
    | none => rw [hf] at hr; simp at hr
    | some m =>
      rw [hf] at hr
      simp only [Option.map_some', Option.some.injEq] at hr
      rw [← hr, applyFixed_some F byKey m hf]
  have dropped : ∀ (line : Str) (byKey : List pair), parseParts (Split line ' ') [] = .ok byKey →
      (lineRule F line = none ↔
        ∃ pre p post, F = pre ++ p :: post ∧ (∀ q ∈ pre, q.key ≠ p.key) ∧
          ∃ v, mapGet byKey p.key = some v ∧ v ≠ p.value) := by
    intro line byKey hp
    rw [← applyFixed_none_iff]
    simp [lineRule, hp]
  refine ⟨fun lines hw => ?_, fun lines rules h => ?_,
    fun line byKey hp => ⟨dropped line byKey hp, ?_, ?_⟩, ?_⟩
  · obtain ⟨rules, hr⟩ := (loadLines_ok_iff F lines []).2 hw
    rw [hr, loadLines_eq_filterMap F lines rules hr]
  · have hrules := loadLines_eq_filterMap F lines rules h
    refine ⟨hrules, fun r hr p hp => ?_⟩
    rw [hrules, List.mem_filterMap] at hr
    obtain ⟨line, _, hline⟩ := hr
    cases hpp : parseParts (Split line ' ') [] with
    | error e => simp [lineRule, hpp] at hline
    | ok byKey =>
      rw [kept line byKey hpp r hline] at hp
      have := ((sortPairs_perm _).mem_iff).1 hp
      simpa using (List.mem_filter.1 this).2
  · intro hnd
    rw [dropped line byKey hp]
    constructor
    · rintro ⟨pre, p, post, hF, _, hv⟩
      exact ⟨p, by rw [hF]; simp, hv⟩
    · rintro ⟨p, hpF, hv⟩
      obtain ⟨pre, post, hF⟩ := List.append_of_mem hpF
      refine ⟨pre, p, post, hF, fun q hq hk => ?_, hv⟩
      rw [hF, List.map_append, List.map_cons] at hnd
      have := (List.nodup_append.1 hnd).2.2
      exact this (List.mem_map_of_mem _ hq) (by rw [hk]; exact List.mem_cons_self _ _)
  · intro r hr
    have hk := kept line byKey hp r hr
    refine ⟨hk, fun p => ?_⟩
    rw [hk, (sortPairs_perm _).mem_iff, List.mem_filter]
    simp
  · exact ⟨rfl, rfl⟩

/-- C4 at a concrete input: the line `tag=node1 rate=100%`, with the fixed pairs
`tag=node2` (the line is dropped) and `tag=node1` (the line is kept without the tag). -/
theorem fixed_pair_scoping_witness :
    lineRule [⟨kTag, vNode2⟩] lineNode1 = none ∧
    (∀ r, lineRule [⟨kTag, vNode1⟩] lineNode1 = some r →
      r.pairs = sortPairs
        (byKeyNode1.filter (fun p => decide (p.key ∉ [(⟨kTag, vNode1⟩ : pair)].map pair.key)))) :=
  ⟨(((fixed_pair_scoping [⟨kTag, vNode2⟩]).2.2.1 lineNode1 byKeyNode1 rfl).2.1
      (by decide)).2 ⟨⟨kTag, vNode2⟩, by decide, vNode1, by decide, by decide⟩,
    fun r hr => (((fixed_pair_scoping [⟨kTag, vNode1⟩]).2.2.1 lineNode1 byKeyNode1
      rfl).2.2 r hr).1⟩

/-- C4 as stated fails for fixed pairs that repeat a key: with `F = [tag=node1, tag=node2]`
the pair `tag=node2` of `F` finds `tag` in the line `tag=node1 rate=100%` with another
value, yet the line contributes a rule (the first fixed pair has deleted the key before
the second is looked up); `NewRoundTripper` stores it. -/
theorem fixed_pair_scoping_counterexample :
    parseParts (Split lineNode1 ' ') [] = .ok byKeyNode1 ∧
    (∃ p ∈ [(⟨kTag, vNode1⟩ : pair), ⟨kTag, vNode2⟩],
      ∃ v, mapGet byKeyNode1 p.key = some v ∧ v ≠ p.value) ∧
    lineRule [⟨kTag, vNode1⟩, ⟨kTag, vNode2⟩] lineNode1 =
      some ⟨[⟨kRate, ['1', '0', '0', '%']⟩]⟩ ∧
    NewRoundTripper ['r']
      [['t', 'a', 'g', '=', 'n', 'o', 'd', 'e', '1'], ['t', 'a', 'g', '=', 'n', 'o', 'd', 'e', '2']]
      true (fun _ => .ok lineNode1) =
      .ok ⟨['r'], [⟨kTag, vNode1⟩, ⟨kTag, vNode2⟩], 1, [⟨[⟨kRate, ['1', '0', '0', '%']⟩]⟩]⟩ := by
  exact ⟨rfl, ⟨⟨kTag, vNode2⟩, by decide, vNode1, by decide, by decide⟩, by decide, rfl⟩

/-! ## Lemmas on the matcher -/

theorem float32_magnitude (a : Nat) (ha : ¬ a < 2 ^ 24) :
    2 ^ 23 ≤
      (if a % 2 ^ (Nat.log2 a - 23) > 2 ^ (Nat.log2 a - 23 - 1) ∨
          (a % 2 ^ (Nat.log2 a - 23) = 2 ^ (Nat.log2 a - 23 - 1) ∧
            a / 2 ^ (Nat.log2 a - 23) % 2 = 1)
        then a / 2 ^ (Nat.log2 a - 23) + 1 else a / 2 ^ (Nat.log2 a - 23)) *
        2 ^ (Nat.log2 a - 23) := by
  have ha2 : 2 ^ 24 ≤ a := Nat.le_of_not_lt ha
  have hne : a ≠ 0 := by
    intro h; rw [h] at ha2; exact absurd ha2 (by decide)
  have hlog : 24 ≤ Nat.log2 a := (Nat.le_log2 hne).2 ha2
  have hpow : 2 ^ 23 * 2 ^ (Nat.log2 a - 23) ≤ a := by
    rw [← Nat.pow_add]
    have : 23 + (Nat.log2 a - 23) = Nat.log2 a := by omega
    rw [this]
    exact Nat.log2_self_le hne
  have hq : 2 ^ 23 ≤ a / 2 ^ (Nat.log2 a - 23) :=
    (Nat.le_div_iff_mul_le (Nat.pos_pow_of_pos _ (by decide))).2 hpow
  have hone : 1 ≤ 2 ^ (Nat.log2 a - 23) := Nat.one_le_two_pow
  split
  · calc 2 ^ 23 ≤ a / 2 ^ (Nat.log2 a - 23) + 1 := Nat.le_succ_of_le hq
      _ = (a / 2 ^ (Nat.log2 a - 23) + 1) * 1 := (Nat.mul_one _).symm
      _ ≤ _ := Nat.mul_le_mul_left _ hone
  · calc 2 ^ 23 ≤ a / 2 ^ (Nat.log2 a - 23) := hq
      _ = (a / 2 ^ (Nat.log2 a - 23)) * 1 := (Nat.mul_one _).symm
      _ ≤ _ := Nat.mul_le_mul_left _ hone

theorem float32OfInt64_big (R : Int) (ha : ¬ R.natAbs < 2 ^ 24) :
    ∃ M : Nat, 2 ^ 23 ≤ M ∧ float32OfInt64 R = if R < 0 then -(M : Int) else (M : Int) := by
  unfold float32OfInt64
  simp only [ha, if_false]
  exact ⟨_, float32_magnitude R.natAbs ha, rfl⟩

/-- On samples in `[0, 100)` the rounding of `float32(rate)` does not change the outcome
of the comparison: the sample is below `float32(rate)` exactly when it is below `rate`. -/
theorem float32OfInt64_lt_iff (R : Int) (s : ℚ) (h0 : 0 ≤ s) (h1 : s < 100) :
    s < ((float32OfInt64 R : Int) : ℚ) ↔ s < (R : ℚ) := by
  by_cases ha : R.natAbs < 2 ^ 24
  · have : float32OfInt64 R = R := by
      unfold float32OfInt64
      simp only [ha, if_true]
    rw [this]
  · obtain ⟨M, hM, hf⟩ := float32OfInt64_big R ha
    have ha2 : 2 ^ 24 ≤ R.natAbs := Nat.le_of_not_lt ha
    have hM2 : (100 : ℚ) ≤ (M : ℚ) := by
      have : (100 : Nat) ≤ M := le_trans (by decide : 100 ≤ 2 ^ 23) hM
      exact_mod_cast this
    rw [hf]
    by_cases hn : R < 0
    · rw [if_pos hn]
      have hR : ((R : Int) : ℚ) < 0 := by exact_mod_cast hn
      constructor
      · intro h
        push_cast at h
        linarith
      · intro h
        linarith
    · rw [if_neg hn]
      have hR : (100 : ℚ) ≤ ((R : Int) : ℚ) := by
        have : (100 : Int) ≤ R := by omega
        exact_mod_cast this
      constructor
      · intro _; linarith
      · intro _
        push_cast
        linarith

theorem afterPairs_nil (stage : Str) (env : Env) : afterPairs stage env [] = env := by
  simp [afterPairs, rateCount, redialCount]

theorem afterPairs_append (stage : Str) (env : Env) (a b : List pair) :
    afterPairs stage (afterPairs stage env a) b = afterPairs stage env (a ++ b) := by
  simp only [afterPairs, rateCount, redialCount, List.countP_append]
  split <;> simp [Nat.add_assoc]

theorem matchPairs_step (stage dest : Str) (rnd : Nat → ℚ) (hr : inRange rnd)
    (p : pair) (ps : List pair) (env : Env) (hk : knownKey p.key) :
    (pairSatisfied stage dest (rnd env.drawn) p →
      matchPairs stage dest rnd (p :: ps) env =
        matchPairs stage dest rnd ps (afterPairs stage env [p])) ∧
    (¬ pairSatisfied stage dest (rnd env.drawn) p →
      matchPairs stage dest rnd (p :: ps) env = (.abandoned, afterPairs stage env [p])) := by
  obtain ⟨k, v⟩ := p
  have hf := float32OfInt64_lt_iff (rateOf v) (rnd env.drawn) (hr _).1 (hr _).2
  simp only [rateOf] at hf
  have e1 : ¬ kDest = kRate := by decide
  have e2 : ¬ kDest = kStage := by decide
  have e3 : ¬ kDest = kRedial := by decide
  have e4 : ¬ kRate = kDest := by decide
  have e5 : ¬ kRate = kStage := by decide
  have e6 : ¬ kRate = kRedial := by decide
  have e7 : ¬ kStage = kDest := by decide
  have e8 : ¬ kStage = kRate := by decide
  have e9 : ¬ kStage = kRedial := by decide
  have e10 : ¬ kRedial = kDest := by decide
  have e11 : ¬ kRedial = kRate := by decide
  have e12 : ¬ kRedial = kStage := by decide
  simp only [knownKey] at hk
  rcases hk with h | h | h | h <;> subst h
  · simp only [pairSatisfied, matchPairs, afterPairs, rateCount, redialCount, List.countP_cons,
      List.countP_nil, e1, e2, e3, decide_False, decide_True, if_true, if_false, ite_self,
      Nat.add_zero, Nat.zero_add, true_implies, false_implies, and_true, ne_eq, ite_not,
      Bool.false_eq_true]
    constructor
    · intro h; rw [if_pos h]
    · intro h; rw [if_neg h]
  · simp only [pairSatisfied, matchPairs, afterPairs, rateCount, redialCount, List.countP_cons,
      List.countP_nil, e4, e5, e6, decide_False, decide_True, if_true, if_false, ite_self,
      Nat.add_zero, Nat.zero_add, true_implies, false_implies, and_true, true_and, ne_eq,
      Bool.false_eq_true, rateOf]
    constructor
    · intro h; rw [if_pos (hf.2 h)]
    · intro h; rw [if_neg (fun h2 => h (hf.1 h2))]
  · simp only [pairSatisfied, matchPairs, afterPairs, rateCount, redialCount, List.countP_cons,
      List.countP_nil, e7, e8, e9, decide_False, decide_True, if_true, if_false, ite_self,
      Nat.add_zero, Nat.zero_add, true_implies, false_implies, and_true, true_and, ne_eq,
      ite_not, Bool.false_eq_true]
    constructor
    · intro h; rw [if_pos h]
    · intro h; rw [if_neg h]
  · simp only [pairSatisfied, matchPairs, afterPairs, rateCount, redialCount, List.countP_cons,
      List.countP_nil, e10, e11, e12, decide_False, decide_True, if_true, if_false,
      Nat.add_zero, Nat.zero_add, true_implies, false_implies, and_true, true_and, ne_eq,
      Bool.false_eq_true, not_true_eq_false]
    by_cases hs : stage = sRequest
    · simp only [hs, if_true]
    · simp only [hs, if_false, Nat.add_zero]

theorem ruleSatisfied_nil (stage dest : Str) (rnd : Nat → ℚ) (n : Nat) :
    ruleSatisfied stage dest rnd n [] := by
  intro pre p post h
  simp at h

theorem ruleSatisfied_cons (stage dest : Str) (rnd : Nat → ℚ) (n : Nat) (p : pair)
    (ps : List pair) :
    ruleSatisfied stage dest rnd n (p :: ps) ↔
      pairSatisfied stage dest (rnd n) p ∧
        ruleSatisfied stage dest rnd (n + rateCount [p]) ps := by
  constructor
  · intro h
    refine ⟨by simpa [rateCount] using h [] p ps rfl, fun pre q post hq => ?_⟩
    have := h (p :: pre) q post (by rw [hq]; rfl)
    simpa [rateCount, List.countP_cons, Nat.add_assoc, Nat.add_comm] using this
  · rintro ⟨h1, h2⟩ pre q post hq
    cases pre with
    | nil =>
      have : p = q := List.head_eq_of_cons_eq hq
      rw [← this]
      simpa [rateCount] using h1
    | cons p0 pre =>
      have hp : p = p0 := List.head_eq_of_cons_eq hq
      have := h2 pre q post (List.tail_eq_of_cons_eq hq)
      rw [← hp]
      simpa [rateCount, List.countP_cons, Nat.add_assoc, Nat.add_comm] using this

theorem matchPairs_of_satisfied (stage dest : Str) (rnd : Nat → ℚ) (hr : inRange rnd)
    (ps : List pair) (env : Env) (hk : knownKeys ps)
    (hs : ruleSatisfied stage dest rnd env.drawn ps) :
    matchPairs stage dest rnd ps env = (.matched, afterPairs stage env ps) := by
  induction ps generalizing env with
  | nil => simp [matchPairs, afterPairs_nil]
  | cons p ps ih =>
    obtain ⟨h1, h2⟩ := (ruleSatisfied_cons stage dest rnd env.drawn p ps).1 hs
    rw [(matchPairs_step stage dest rnd hr p ps env (hk p (List.mem_cons_self _ _))).1 h1,
      ih (afterPairs stage env [p]) (fun q hq => hk q (List.mem_cons_of_mem _ hq)) h2,
      afterPairs_append]
    rfl

theorem matchPairs_of_first_unsatisfied (stage dest : Str) (rnd : Nat → ℚ) (hr : inRange rnd)
    (pre : List pair) (p : pair) (post : List pair) (env : Env)
    (hk : knownKeys (pre ++ p :: post))
    (hs : ruleSatisfied stage dest rnd env.drawn pre)
    (hp : ¬ pairSatisfied stage dest (rnd (env.drawn + rateCount pre)) p) :
    matchPairs stage dest rnd (pre ++ p :: post) env =
      (.abandoned, afterPairs stage env (pre ++ [p])) := by
  induction pre generalizing env with
  | nil =>
    have hp2 : ¬ pairSatisfied stage dest (rnd env.drawn) p := by
      simpa [rateCount] using hp
    simpa using (matchPairs_step stage dest rnd hr p post env
      (hk p (by simp))).2 hp2
  | cons q pre ih =>
    obtain ⟨h1, h2⟩ := (ruleSatisfied_cons stage dest rnd env.drawn q pre).1 hs
    have hstep := (matchPairs_step stage dest rnd hr q (pre ++ p :: post) env
      (hk q (by simp))).1 h1
    rw [List.cons_append, hstep,
      ih (afterPairs stage env [q]) (fun x hx => hk x (by
        rw [List.cons_append]; exact List.mem_cons_of_mem _ hx)) h2
        (by
          have : (afterPairs stage env [q]).drawn + rateCount pre =
              env.drawn + rateCount (q :: pre) := by
            simp [afterPairs, rateCount, List.countP_cons, Nat.add_assoc, Nat.add_comm]
          rw [this]; exact hp),
      afterPairs_append]
    rfl

theorem exists_first_unsatisfied (stage dest : Str) (rnd : Nat → ℚ) (n : Nat)
    (ps : List pair) (h : ¬ ruleSatisfied stage dest rnd n ps) :
    ∃ pre p post, ps = pre ++ p :: post ∧ ruleSatisfied stage dest rnd n pre ∧
      ¬ pairSatisfied stage dest (rnd (n + rateCount pre)) p := by
  induction ps generalizing n with
  | nil => exact absurd (ruleSatisfied_nil stage dest rnd n) h
  | cons p ps ih =>
    by_cases h1 : pairSatisfied stage dest (rnd n) p
    · have h2 : ¬ ruleSatisfied stage dest rnd (n + rateCount [p]) ps := fun h2 =>
        h ((ruleSatisfied_cons stage dest rnd n p ps).2 ⟨h1, h2⟩)
      obtain ⟨pre, q, post, hps, hpre, hq⟩ := ih (n + rateCount [p]) h2
      refine ⟨p :: pre, q, post, by rw [hps]; rfl,
        (ruleSatisfied_cons stage dest rnd n p pre).2 ⟨h1, hpre⟩, ?_⟩
      have : n + rateCount (p :: pre) = n + rateCount [p] + rateCount pre := by
        simp [rateCount, List.countP_cons, Nat.add_assoc, Nat.add_comm]
      rw [this]; exact hq
    · exact ⟨[], p, ps, rfl, ruleSatisfied_nil stage dest rnd n, by simpa [rateCount] using h1⟩

theorem failRules_cons_of_satisfied (stage dest : Str) (rnd : Nat → ℚ) (hr : inRange rnd)
    (r : configRule) (rest : List configRule) (env : Env) (hk : knownKeys r.pairs)
    (hs : ruleSatisfied stage dest rnd env.drawn r.pairs) :
    failRules stage dest rnd (r :: rest) env = (some true, afterPairs stage env r.pairs) := by
  simp [failRules, matchPairs_of_satisfied stage dest rnd hr r.pairs env hk hs]

theorem failRules_cons_of_unsatisfied (stage dest : Str) (rnd : Nat → ℚ) (hr : inRange rnd)
    (r : configRule) (env : Env) (hk : knownKeys r.pairs)
    (hs : ¬ ruleSatisfied stage dest rnd env.drawn r.pairs) :
    ∃ pre p post, r.pairs = pre ++ p :: post ∧
      ruleSatisfied stage dest rnd env.drawn pre ∧
      ¬ pairSatisfied stage dest (rnd (env.drawn + rateCount pre)) p ∧
      ∀ rest, failRules stage dest rnd (r :: rest) env =
        failRules stage dest rnd rest (afterPairs stage env (pre ++ [p])) := by
  obtain ⟨pre, p, post, hps, hpre, hp⟩ :=
    exists_first_unsatisfied stage dest rnd env.drawn r.pairs hs
  refine ⟨pre, p, post, hps, hpre, hp, fun rest => ?_⟩
  have hm := matchPairs_of_first_unsatisfied stage dest rnd hr pre p post env
    (by rw [← hps]; exact hk) hpre hp
  rw [← hps] at hm
  simp [failRules, hm]

theorem failRules_not_fatal (stage dest : Str) (rnd : Nat → ℚ) (hr : inRange rnd)
    (rules : List configRule) (env : Env) (hk : ∀ r ∈ rules, knownKeys r.pairs) :
    (failRules stage dest rnd rules env).1 = some true ∨
      (failRules stage dest rnd rules env).1 = some false := by
  induction rules generalizing env with
  | nil => right; rfl
  | cons r rules ih =>
    have hkr := hk r (List.mem_cons_self _ _)
    by_cases hs : ruleSatisfied stage dest rnd env.drawn r.pairs
    · left; rw [failRules_cons_of_satisfied stage dest rnd hr r rules env hkr hs]
    · obtain ⟨pre, p, post, _, _, _, hstep⟩ :=
        failRules_cons_of_unsatisfied stage dest rnd hr r env hkr hs
      rw [hstep rules]
      exact ih _ (fun r2 h2 => hk r2 (List.mem_cons_of_mem _ h2))

theorem failRules_true_iff (stage dest : Str) (rnd : Nat → ℚ) (hr : inRange rnd)
    (rules : List configRule) (env env1 : Env) (hk : ∀ r ∈ rules, knownKeys r.pairs) :
    failRules stage dest rnd rules env = (some true, env1) ↔
      ∃ pre r post env0, rules = pre ++ r :: post ∧
        failRules stage dest rnd pre env = (some false, env0) ∧
        ruleSatisfied stage dest rnd env0.drawn r.pairs ∧
        env1 = afterPairs stage env0 r.pairs := by
  induction rules generalizing env with
  | nil => simp [failRules]
  | cons r rules ih =>
    have hkr := hk r (List.mem_cons_self _ _)
    by_cases hs : ruleSatisfied stage dest rnd env.drawn r.pairs
    · rw [failRules_cons_of_satisfied stage dest rnd hr r rules env hkr hs]
      constructor
      · intro h
        have h1 : afterPairs stage env r.pairs = env1 := (Prod.mk.inj h).2
        exact ⟨[], r, rules, env, rfl, rfl, hs, h1.symm⟩
      · rintro ⟨pre, r0, post, env0, hrules, hpre, hsat, henv⟩
        cases pre with
        | nil =>
          have h0 : r = r0 := List.head_eq_of_cons_eq hrules
          have h1 : env = env0 := (Prod.mk.inj hpre).2
          rw [henv, ← h0, ← h1]
        | cons r1 pre =>
          have h0 : r = r1 := List.head_eq_of_cons_eq hrules
          rw [← h0, failRules_cons_of_satisfied stage dest rnd hr r pre env hkr hs] at hpre
          simp at hpre
    · obtain ⟨pre0, p, post0, _, _, _, hstep⟩ :=
        failRules_cons_of_unsatisfied stage dest rnd hr r env hkr hs
      rw [hstep rules, ih _ (fun r2 h2 => hk r2 (List.mem_cons_of_mem _ h2))]
      constructor
      · rintro ⟨pre, r0, post, env0, hrules, hpre, hsat, henv⟩
        exact ⟨r :: pre, r0, post, env0, by rw [hrules]; rfl, by rw [hstep pre]; exact hpre,
          hsat, henv⟩
      · rintro ⟨pre, r0, post, env0, hrules, hpre, hsat, henv⟩
        cases pre with
        | nil =>
          have h0 : r = r0 := List.head_eq_of_cons_eq hrules
          have h1 : env = env0 := (Prod.mk.inj hpre).2
          rw [← h0, ← h1] at hsat
          exact absurd hsat hs
        | cons r1 pre =>
          have h0 : r = r1 := List.head_eq_of_cons_eq hrules
          rw [← h0, hstep pre] at hpre
          exact ⟨pre, r0, post, env0, List.tail_eq_of_cons_eq hrules, hpre, hsat, henv⟩

theorem ruleSatisfied_no_rate (stage dest : Str) (rnd : Nat → ℚ) (n : Nat) (ps : List pair)
    (hn : ∀ p ∈ ps, p.key ≠ kRate) :
    ruleSatisfied stage dest rnd n ps ↔
      ∀ p ∈ ps, (p.key = kDest → p.value = dest) ∧ (p.key = kStage → p.value = stage) := by
  constructor
  · intro h p hp
    obtain ⟨pre, post, hps⟩ := List.append_of_mem hp
    have := h pre p post hps
    exact ⟨this.1, this.2.1⟩
  · intro h pre p post hps
    have hp : p ∈ ps := by rw [hps]; simp
    exact ⟨(h p hp).1, (h p hp).2, fun hk => absurd hk (hn p hp)⟩

theorem rateCount_eq_zero (ps : List pair) (hn : ∀ p ∈ ps, p.key ≠ kRate) :
    rateCount ps = 0 := by
  unfold rateCount
  rw [List.countP_eq_zero]
  intro p hp
  simpa using hn p hp

theorem failRules_no_rate (stage dest : Str) (rnd : Nat → ℚ) (hr : inRange rnd)
    (rules : List configRule) (env : Env) (hk : ∀ r ∈ rules, knownKeys r.pairs)
    (hn : ∀ r ∈ rules, ∀ p ∈ r.pairs, p.key ≠ kRate) :
    ((failRules stage dest rnd rules env).1 = some true ↔
      ∃ r ∈ rules, ∀ p ∈ r.pairs,
        (p.key = kDest → p.value = dest) ∧ (p.key = kStage → p.value = stage)) ∧
    (failRules stage dest rnd rules env).2.drawn = env.drawn := by
  induction rules generalizing env with
  | nil => simp [failRules]
  | cons r rules ih =>
    have hkr := hk r (List.mem_cons_self _ _)
    have hnr := hn r (List.mem_cons_self _ _)
    have hspec := ruleSatisfied_no_rate stage dest rnd env.drawn r.pairs hnr
    by_cases hs : ruleSatisfied stage dest rnd env.drawn r.pairs
    · rw [failRules_cons_of_satisfied stage dest rnd hr r rules env hkr hs]
      refine ⟨⟨fun _ => ⟨r, List.mem_cons_self _ _, hspec.1 hs⟩, fun _ => rfl⟩, ?_⟩
      simp [afterPairs, rateCount_eq_zero r.pairs hnr]
    · obtain ⟨pre, p, post, hps, _, _, hstep⟩ :=
        failRules_cons_of_unsatisfied stage dest rnd hr r env hkr hs
      have hz : rateCount (pre ++ [p]) = 0 := by
        apply rateCount_eq_zero
        intro q hq
        apply hnr q
        rw [hps]
        rcases List.mem_append.1 hq with h | h
        · exact List.mem_append_left _ h
        · exact List.mem_append_right _ (by
            rw [List.mem_singleton.1 h]; exact List.mem_cons_self _ _)
      have hd : (afterPairs stage env (pre ++ [p])).drawn = env.drawn := by
        simp [afterPairs, hz]
      obtain ⟨ih1, ih2⟩ := ih (afterPairs stage env (pre ++ [p]))
        (fun r2 h2 => hk r2 (List.mem_cons_of_mem _ h2))
        (fun r2 h2 => hn r2 (List.mem_cons_of_mem _ h2))
      rw [hstep rules]
      refine ⟨?_, by rw [ih2, hd]⟩
      rw [ih1]
      constructor
      · rintro ⟨r2, h2, hall⟩
        exact ⟨r2, List.mem_cons_of_mem _ h2, hall⟩
      · rintro ⟨r2, h2, hall⟩
        rcases List.mem_cons.1 h2 with h | h
        · rw [h] at hall; exact absurd (hspec.2 hall) hs
        · exact ⟨r2, h, hall⟩

/-! ## C5 -/

/-- C5: first-match-wins evaluation. For a rule list with keys within `dest`, `stage`,
`rate`, `redial` and samples in `[0, 100)`: `failCommon` returns true or false, never
the fatal branch; it returns true, ending in the environment `env1`, exactly when the
rule list splits into rules `pre` that are tried without a match, a rule `r` all of whose
pairs are satisfied (`ruleSatisfied`: each pair with the sample freshly drawn for it, in
stored pair order), and rules `post`, which have no effect: `env1` is the environment after
`pre` plus one sample per `rate` pair of `r` and, at stage `request`, one
`CloseIdleConnections` per `redial` pair of `r`; a rule whose pairs are all satisfied ends
the evaluation with true, a rule that is not is left at its first unsatisfied pair and
the evaluation goes on with the next rule; and for rule lists with no `rate` pair the
result is true exactly when some rule has all its `dest` pairs equal to the destination
and all its `stage` pairs equal to the stage, and no sample is drawn. -/
theorem failCommon_first_match_wins (rt : RoundTripper) (stage dest : Str) (rnd : Nat → ℚ)
    (hk : ∀ r ∈ rt.rules, knownKeys r.pairs) (hr : inRange rnd) :
    (∀ env, (failCommon rt stage dest rnd env).1 = some true ∨
      (failCommon rt stage dest rnd env).1 = some false) ∧
    (∀ env env1, failCommon rt stage dest rnd env = (some true, env1) ↔
      ∃ pre r post env0, rt.rules = pre ++ r :: post ∧
        failRules stage dest rnd pre env = (some false, env0) ∧
        ruleSatisfied stage dest rnd env0.drawn r.pairs ∧
        env1 = afterPairs stage env0 r.pairs) ∧
    (∀ (r : configRule) (rest : List configRule) (env : Env), knownKeys r.pairs →
      ruleSatisfied stage dest rnd env.drawn r.pairs →
      failRules stage dest rnd (r :: rest) env = (some true, afterPairs stage env r.pairs)) ∧
    (∀ (r : configRule) (env : Env), knownKeys r.pairs →
      ¬ ruleSatisfied stage dest rnd env.drawn r.pairs →
      ∃ pre p post, r.pairs = pre ++ p :: post ∧
        ruleSatisfied stage dest rnd env.drawn pre ∧
        ¬ pairSatisfied stage dest (rnd (env.drawn + rateCount pre)) p ∧
        ∀ rest, failRules stage dest rnd (r :: rest) env =
          failRules stage dest rnd rest (afterPairs stage env (pre ++ [p]))) ∧
    ((∀ r ∈ rt.rules, ∀ p ∈ r.pairs, p.key ≠ kRate) →
      ∀ env,
        ((failCommon rt stage dest rnd env).1 = some true ↔
          ∃ r ∈ rt.rules, ∀ p ∈ r.pairs,
            (p.key = kDest → p.value = dest) ∧ (p.key = kStage → p.value = stage)) ∧
        (failCommon rt stage dest rnd env).2.drawn = env.drawn) :=
  ⟨fun env => failRules_not_fatal stage dest rnd hr rt.rules env hk,
    fun env env1 => failRules_true_iff stage dest rnd hr rt.rules env env1 hk,
    fun r rest env hkr hs => failRules_cons_of_satisfied stage dest rnd hr r rest env hkr hs,
    fun r env hkr hs => failRules_cons_of_unsatisfied stage dest rnd hr r env hkr hs,
    fun hn env => failRules_no_rate stage dest rnd hr rt.rules env hk hn⟩
/-- C5 at a concrete input: on `c5State` at stage `request` for destination `a` the first
rule is left at its `stage` pair and the second matches; no sample is drawn. -/
theorem failCommon_first_match_wins_witness :
    (∀ r ∈ c5State.rules, knownKeys r.pairs) ∧ inRange (fun _ => 10) ∧
    (failCommon c5State sRequest ['a'] (fun _ => 10) ⟨0, 0⟩).1 = some true ∧
    (failCommon c5State sRequest ['a'] (fun _ => 10) ⟨0, 0⟩).2.drawn = 0 :=
  ⟨by decide, fun _ => ⟨by norm_num, by norm_num⟩,
    ((failCommon_first_match_wins c5State sRequest ['a'] (fun _ => 10) (by decide)
      (fun _ => ⟨by norm_num, by norm_num⟩)).2.2.2.2 (by decide) ⟨0, 0⟩).1.2
      ⟨⟨[⟨kDest, ['a']⟩, ⟨kRedial, ['f']⟩, ⟨kStage, sRequest⟩]⟩, by decide, by decide⟩,
    ((failCommon_first_match_wins c5State sRequest ['a'] (fun _ => 10) (by decide)
      (fun _ => ⟨by norm_num, by norm_num⟩)).2.2.2.2 (by decide) ⟨0, 0⟩).2⟩

/-! ## C6 -/

theorem matchPairs_rate (stage dest : Str) (rnd : Nat → ℚ) (hr : inRange rnd)
    (p : pair) (ps : List pair) (env : Env) (hp : p.key = kRate) :
    matchPairs stage dest rnd (p :: ps) env =
      if rnd env.drawn < (rateOf p.value : ℚ)
      then matchPairs stage dest rnd ps ⟨env.drawn + 1, env.closed⟩
      else (.abandoned, ⟨env.drawn + 1, env.closed⟩) := by
  have hf := float32OfInt64_lt_iff (rateOf p.value) (rnd env.drawn) (hr _).1 (hr _).2
  have e4 : ¬ kRate = kDest := by decide
  simp only [matchPairs, hp, e4, if_false, if_true]
  simp only [rateOf] at hf
  by_cases hs : rnd env.drawn < (rateOf p.value : ℚ)
  · rw [if_pos hs, if_pos (hf.2 hs)]
  · rw [if_neg hs, if_neg (fun h => hs (hf.1 h))]

theorem failRules_rateRule (D v : Str) (rnd : Nat → ℚ) (hr : inRange rnd) (env : Env) :
    failRules sRequest D rnd [rateRule D v] env =
      (some (decide (rnd env.drawn < (rateOf v : ℚ))), ⟨env.drawn + 1, env.closed⟩) := by
  have hm : matchPairs sRequest D rnd [⟨kDest, D⟩, ⟨kRate, v⟩, ⟨kStage, sRequest⟩] env =
      matchPairs sRequest D rnd [⟨kRate, v⟩, ⟨kStage, sRequest⟩] env := by
    simp [matchPairs]
  have e7 : ¬ kStage = kDest := by decide
  have e8 : ¬ kStage = kRate := by decide
  have hs : ∀ e : Env, matchPairs sRequest D rnd [⟨kStage, sRequest⟩] e = (.matched, e) := by
    intro e
    simp [matchPairs, e7, e8]
  simp only [failRules, rateRule, hm,
    matchPairs_rate sRequest D rnd hr ⟨kRate, v⟩ [⟨kStage, sRequest⟩] env rfl, hs]
  by_cases hlt : rnd env.drawn < (rateOf v : ℚ)
  · simp [hlt]
  · simp [hlt]

/-- C6: rate threshold semantics, for samples in `[0, 100)`. When the evaluation of a rule
reaches a `rate` pair with integer value `R`, one sample `s` is drawn; if `s < R` the
evaluation goes on with the remaining pairs of the rule, otherwise the rule is left and
the evaluation moves to the next rule. So the single rule `dest=D rate=R stage=request`
queried at (`request`, `D`) decides true exactly when `s < R`, with one sample drawn: always
for `R ≥ 100`, never for `R ≤ 0`, and for `0 ≤ R ≤ 100` the samples of `[0, 100)` on which it
decides true are those of `[0, R)`, the share `R` percent. The values `100%`, `50%` and `0`
are the rates 100, 50 and 0. -/
theorem rate_threshold (stage dest : Str) (rnd : Nat → ℚ) (hr : inRange rnd) :
    (∀ (p : pair) (ps : List pair) (env : Env), p.key = kRate →
      matchPairs stage dest rnd (p :: ps) env =
        if rnd env.drawn < (rateOf p.value : ℚ)
        then matchPairs stage dest rnd ps ⟨env.drawn + 1, env.closed⟩
        else (.abandoned, ⟨env.drawn + 1, env.closed⟩)) ∧
    (∀ (p : pair) (ps : List pair) (rest : List configRule) (env : Env), p.key = kRate →
      ¬ rnd env.drawn < (rateOf p.value : ℚ) →
      failRules stage dest rnd (⟨p :: ps⟩ :: rest) env =
        failRules stage dest rnd rest ⟨env.drawn + 1, env.closed⟩) ∧
    (∀ (D v : Str) (env : Env),
      failRules sRequest D rnd [rateRule D v] env =
        (some (decide (rnd env.drawn < (rateOf v : ℚ))), ⟨env.drawn + 1, env.closed⟩) ∧
      (100 ≤ rateOf v → (failRules sRequest D rnd [rateRule D v] env).1 = some true) ∧
      (rateOf v ≤ 0 → (failRules sRequest D rnd [rateRule D v] env).1 = some false)) ∧
    (∀ (D v : Str) (env : Env), 0 ≤ rateOf v → rateOf v ≤ 100 →
      {s : ℚ | 0 ≤ s ∧ s < 100 ∧
          (failRules sRequest D (fun _ => s) [rateRule D v] env).1 = some true} =
        Set.Ico (0 : ℚ) (rateOf v : ℚ)) ∧
    (rateOf ['1', '0', '0', '%'] = 100 ∧ rateOf ['5', '0', '%'] = 50 ∧ rateOf ['0'] = 0) := by
  refine ⟨fun p ps env hp => matchPairs_rate stage dest rnd hr p ps env hp,
    fun p ps rest env hp hs => ?_, fun D v env => ⟨failRules_rateRule D v rnd hr env, ?_, ?_⟩,
    fun D v env h0 h100 => ?_, by decide, by decide, by decide⟩
  · simp only [failRules, matchPairs_rate stage dest rnd hr p ps env hp, if_neg hs]
  · intro h
    rw [failRules_rateRule D v rnd hr env]
    have : rnd env.drawn < (rateOf v : ℚ) := by
      have h2 : (100 : ℚ) ≤ (rateOf v : ℚ) := by exact_mod_cast h
      exact lt_of_lt_of_le (hr _).2 h2
    simp [this]
  · intro h
    rw [failRules_rateRule D v rnd hr env]
    have : ¬ rnd env.drawn < (rateOf v : ℚ) := by
      have h2 : (rateOf v : ℚ) ≤ 0 := by exact_mod_cast h
      exact not_lt.2 (le_trans h2 (hr _).1)
    simp [this]
  · ext s
    simp only [Set.mem_setOf_eq, Set.mem_Ico]
    have h2 : (rateOf v : ℚ) ≤ 100 := by exact_mod_cast h100
    constructor
    · rintro ⟨hs0, hs1, hd⟩
      rw [failRules_rateRule D v (fun _ => s) (fun _ => ⟨hs0, hs1⟩) env] at hd
      refine ⟨hs0, ?_⟩
      simpa using hd
    · rintro ⟨hs0, hsR⟩
      have hs1 : s < 100 := lt_of_lt_of_le hsR h2
      refine ⟨hs0, hs1, ?_⟩
      rw [failRules_rateRule D v (fun _ => s) (fun _ => ⟨hs0, hs1⟩) env]
      simp [hsR]

/-- C6 at a concrete input: the rule `dest=a rate=50% stage=request` with the sample 10
decides true, with one sample drawn. -/
theorem rate_threshold_witness :
    inRange (fun _ => 10) ∧
    failRules sRequest ['a'] (fun _ => 10) [rateRule ['a'] ['5', '0', '%']] ⟨0, 0⟩ =
      (some (decide ((10 : ℚ) < (rateOf ['5', '0', '%'] : ℚ))), ⟨0 + 1, 0⟩) :=
  ⟨fun _ => ⟨by norm_num, by norm_num⟩,
    ((rate_threshold sRequest ['a'] (fun _ => 10)
      (fun _ => ⟨by norm_num, by norm_num⟩)).2.2.1 ['a'] ['5', '0', '%'] ⟨0, 0⟩).1⟩

/-! ## Lemmas on loading rule lines written for a destination -/

theorem Split_of_not_mem (s : Str) (sep : Char) (h : sep ∉ s) : Split s sep = [s] := by
  induction s with
  | nil => rfl
  | cons c cs ih =>
    have hc : ¬ c = sep := fun e => h (e ▸ List.mem_cons_self _ _)
    have hcs : sep ∉ cs := fun e => h (List.mem_cons_of_mem _ e)
    simp [Split, hc, ih hcs]

theorem Split_append_sep (w rest : Str) (sep : Char) (h : sep ∉ w) :
    Split (w ++ sep :: rest) sep = w :: Split rest sep := by
  induction w with
  | nil => simp [Split]
  | cons c cs ih =>
    have hc : ¬ c = sep := fun e => h (e ▸ List.mem_cons_self _ _)
    have hcs : sep ∉ cs := fun e => h (List.mem_cons_of_mem _ e)
    simp [Split, hc, ih hcs]

theorem TrimSpace_of_ends (a b : Char) (m : Str) (ha : isSpace a = false)
    (hb : isSpace b = false) : TrimSpace (a :: (m ++ [b])) = a :: (m ++ [b]) := by
  unfold TrimSpace
  rw [List.dropWhile_cons_of_neg (by simp [ha])]
  have : a :: (m ++ [b]) = (a :: m) ++ [b] := rfl
  rw [this, List.rdropWhile_concat_neg _ _ _ (by simp [hb])]

theorem TrimSpace_of_ends_newline (a b : Char) (m : Str) (ha : isSpace a = false)
    (hb : isSpace b = false) : TrimSpace (a :: (m ++ [b, '\n'])) = a :: (m ++ [b]) := by
  unfold TrimSpace
  rw [List.dropWhile_cons_of_neg (by simp [ha])]
  have : a :: (m ++ [b, '\n']) = ((a :: m) ++ [b]) ++ ['\n'] := by simp
  rw [this, List.rdropWhile_concat_pos _ _ _ (by decide),
    List.rdropWhile_concat_neg _ _ _ (by simp [hb])]
  rfl

theorem noSpace_not_mem (D : Str) (hD : noSpace D) : ' ' ∉ D ∧ '\n' ∉ D := by
  constructor
  · intro h; exact absurd (hD _ h) (by decide)
  · intro h; exact absurd (hD _ h) (by decide)

theorem parseParts_lineFull (D : Str) (hD : noSpace D) :
    parseParts (Split (lineFull D) ' ') [] = .ok [⟨kDest, D⟩, ⟨kRate, vHundred⟩] := by
  have hsp : ' ' ∉ ['d', 'e', 's', 't', '='] ++ D := by
    simp [(noSpace_not_mem D hD).1]
  have h1 : lineFull D = (['d', 'e', 's', 't', '='] ++ D) ++
      ' ' :: ['r', 'a', 't', 'e', '=', '1', '0', '0', '%'] := by simp [lineFull]
  rw [h1, Split_append_sep _ _ _ hsp]
  have h2 : Split ['r', 'a', 't', 'e', '=', '1', '0', '0', '%'] ' ' =
      [['r', 'a', 't', 'e', '=', '1', '0', '0', '%']] := by decide
  have h3 : (ParseInt (TrimSuffix ['1', '0', '0', '%'] sPercent)).2 = none := by decide
  rw [h2]
  simp [parseParts, IndexByte, mapSet, h3]

theorem parseParts_lineDial (D : Str) (hD : noSpace D) :
    parseParts (Split (lineDial D) ' ') [] =
      .ok [⟨kDest, D⟩, ⟨kRate, vHundred⟩, ⟨kStage, sDial⟩] := by
  have hsp : ' ' ∉ ['d', 'e', 's', 't', '='] ++ D := by
    simp [(noSpace_not_mem D hD).1]
  have h1 : lineDial D = (['d', 'e', 's', 't', '='] ++ D) ++
      ' ' :: ['r', 'a', 't', 'e', '=', '1', '0', '0', '%', ' ', 's', 't', 'a', 'g', 'e', '=',
        'd', 'i', 'a', 'l'] := by simp [lineDial]
  rw [h1, Split_append_sep _ _ _ hsp]
  have h2 : Split ['r', 'a', 't', 'e', '=', '1', '0', '0', '%', ' ', 's', 't', 'a', 'g', 'e', '=',
        'd', 'i', 'a', 'l'] ' ' =
      [['r', 'a', 't', 'e', '=', '1', '0', '0', '%'],
        ['s', 't', 'a', 'g', 'e', '=', 'd', 'i', 'a', 'l']] := by decide
  have h3 : (ParseInt (TrimSuffix ['1', '0', '0', '%'] sPercent)).2 = none := by decide
  rw [h2]
  simp [parseParts, IndexByte, mapSet, h3]

theorem parseParts_lineRedial (D : Str) (hD : noSpace D) :
    parseParts (Split (lineRedial D) ' ') [] =
      .ok [⟨kDest, D⟩, ⟨kStage, sRequest⟩, ⟨kRedial, vForce⟩] := by
  have hsp : ' ' ∉ ['d', 'e', 's', 't', '='] ++ D := by
    simp [(noSpace_not_mem D hD).1]
  have h1 : lineRedial D = (['d', 'e', 's', 't', '='] ++ D) ++
      ' ' :: ['s', 't', 'a', 'g', 'e', '=', 'r', 'e', 'q', 'u', 'e', 's', 't', ' ',
        'r', 'e', 'd', 'i', 'a', 'l', '=', 'f', 'o', 'r', 'c', 'e'] := by simp [lineRedial]
  rw [h1, Split_append_sep _ _ _ hsp]
  have h2 : Split ['s', 't', 'a', 'g', 'e', '=', 'r', 'e', 'q', 'u', 'e', 's', 't', ' ',
        'r', 'e', 'd', 'i', 'a', 'l', '=', 'f', 'o', 'r', 'c', 'e'] ' ' =
      [['s', 't', 'a', 'g', 'e', '=', 'r', 'e', 'q', 'u', 'e', 's', 't'],
        ['r', 'e', 'd', 'i', 'a', 'l', '=', 'f', 'o', 'r', 'c', 'e']] := by decide
  rw [h2]
  simp [parseParts, IndexByte, mapSet]

theorem loadLines_full (D : Str) (hD : noSpace D) :
    loadLines [] [lineFull D] [] = .ok [ruleFull D] := by
  have h1 : strLess kDest kRate = true := by decide
  simp [loadLines, parseParts_lineFull D hD, applyFixed, sortPairs, insertPair, h1, ruleFull]

theorem loadLines_dial (D : Str) (hD : noSpace D) :
    loadLines [] [lineDial D] [] = .ok [ruleDial D] := by
  have h1 : strLess kDest kRate = true := by decide
  have h2 : strLess kRate kStage = true := by decide
  simp [loadLines, parseParts_lineDial D hD, applyFixed, sortPairs, insertPair, h1, h2, ruleDial]

theorem loadLines_dial_redial (D : Str) (hD : noSpace D) :
    loadLines [] [lineDial D, lineRedial D] [] = .ok [ruleDial D, ruleRedial D] := by
  have h1 : strLess kDest kRate = true := by decide
  have h2 : strLess kRate kStage = true := by decide
  have h3 : strLess kDest kRedial = true := by decide
  have h4 : strLess kStage kRedial = false := by decide
  have h5 : strLess kRedial kStage = true := by decide
  have h6 : strLess kDest kStage = true := by decide
  simp [loadLines, parseParts_lineDial D hD, parseParts_lineRedial D hD, applyFixed, sortPairs,
    insertPair, h1, h2, h3, h4, h5, h6, ruleDial, ruleRedial]

theorem lines_full (D : Str) (hD : noSpace D) :
    Split (TrimSpace (lineFull D)) '\n' = [lineFull D] ∧
    Split (TrimSpace (lineFull D ++ ['\n'])) '\n' = [lineFull D] := by
  have hn : '\n' ∉ lineFull D := by simp [lineFull, (noSpace_not_mem D hD).2]
  have h1 : lineFull D = 'd' :: ((['e', 's', 't', '='] ++ D ++
      [' ', 'r', 'a', 't', 'e', '=', '1', '0', '0']) ++ ['%']) := by simp [lineFull]
  have h2 : lineFull D ++ ['\n'] = 'd' :: ((['e', 's', 't', '='] ++ D ++
      [' ', 'r', 'a', 't', 'e', '=', '1', '0', '0']) ++ ['%', '\n']) := by simp [lineFull]
  have t1 : TrimSpace (lineFull D) = lineFull D := by
    rw [h1]; exact TrimSpace_of_ends _ _ _ (by decide) (by decide)
  have t2 : TrimSpace (lineFull D ++ ['\n']) = lineFull D := by
    rw [h2, h1]; exact TrimSpace_of_ends_newline _ _ _ (by decide) (by decide)
  rw [t1, t2]
  exact ⟨Split_of_not_mem _ _ hn, Split_of_not_mem _ _ hn⟩

theorem lines_dial (D : Str) (hD : noSpace D) :
    Split (TrimSpace (lineDial D)) '\n' = [lineDial D] ∧
    Split (TrimSpace (lineDial D ++ ['\n'])) '\n' = [lineDial D] := by
  have hn : '\n' ∉ lineDial D := by simp [lineDial, (noSpace_not_mem D hD).2]
  have h1 : lineDial D = 'd' :: ((['e', 's', 't', '='] ++ D ++
      [' ', 'r', 'a', 't', 'e', '=', '1', '0', '0', '%', ' ', 's', 't', 'a', 'g', 'e', '=',
        'd', 'i', 'a']) ++ ['l']) := by simp [lineDial]
  have h2 : lineDial D ++ ['\n'] = 'd' :: ((['e', 's', 't', '='] ++ D ++
      [' ', 'r', 'a', 't', 'e', '=', '1', '0', '0', '%', ' ', 's', 't', 'a', 'g', 'e', '=',
        'd', 'i', 'a']) ++ ['l', '\n']) := by simp [lineDial]
  have t1 : TrimSpace (lineDial D) = lineDial D := by
    rw [h1]; exact TrimSpace_of_ends _ _ _ (by decide) (by decide)
  have t2 : TrimSpace (lineDial D ++ ['\n']) = lineDial D := by
    rw [h2, h1]; exact TrimSpace_of_ends_newline _ _ _ (by decide) (by decide)
  rw [t1, t2]
  exact ⟨Split_of_not_mem _ _ hn, Split_of_not_mem _ _ hn⟩

theorem lines_dial_redial (D : Str) (hD : noSpace D) :
    Split (TrimSpace (lineDial D ++ '\n' :: lineRedial D)) '\n' = [lineDial D, lineRedial D] := by
  have hn1 : '\n' ∉ lineDial D := by simp [lineDial, (noSpace_not_mem D hD).2]
  have hn2 : '\n' ∉ lineRedial D := by simp [lineRedial, (noSpace_not_mem D hD).2]
  have h1 : lineDial D ++ '\n' :: lineRedial D =
      'd' :: ((['e', 's', 't', '='] ++ D ++
        [' ', 'r', 'a', 't', 'e', '=', '1', '0', '0', '%', ' ', 's', 't', 'a', 'g', 'e', '=',
          'd', 'i', 'a', 'l', '\n', 'd', 'e', 's', 't', '='] ++ D ++
        [' ', 's', 't', 'a', 'g', 'e', '=', 'r', 'e', 'q', 'u', 'e', 's', 't', ' ',
          'r', 'e', 'd', 'i', 'a', 'l', '=', 'f', 'o', 'r', 'c']) ++ ['e']) := by
    simp [lineDial, lineRedial]
  have t1 : TrimSpace (lineDial D ++ '\n' :: lineRedial D) =
      lineDial D ++ '\n' :: lineRedial D := by
    rw [h1]; exact TrimSpace_of_ends _ _ _ (by decide) (by decide)
  rw [t1, Split_append_sep _ _ _ hn1, Split_of_not_mem _ _ hn2]

theorem matchPairs_dest (stage dest : Str) (rnd : Nat → ℚ) (v : Str) (ps : List pair)
    (env : Env) :
    matchPairs stage dest rnd (⟨kDest, v⟩ :: ps) env =
      if v = dest then matchPairs stage dest rnd ps env else (.abandoned, env) := by
  by_cases h : v = dest <;> simp [matchPairs, h]

theorem matchPairs_stage (stage dest : Str) (rnd : Nat → ℚ) (v : Str) (ps : List pair)
    (env : Env) :
    matchPairs stage dest rnd (⟨kStage, v⟩ :: ps) env =
      if v = stage then matchPairs stage dest rnd ps env else (.abandoned, env) := by
  have e7 : ¬ kStage = kDest := by decide
  have e8 : ¬ kStage = kRate := by decide
  by_cases h : v = stage <;> simp [matchPairs, h, e7, e8]

theorem matchPairs_redial (stage dest : Str) (rnd : Nat → ℚ) (v : Str) (ps : List pair)
    (env : Env) :
    matchPairs stage dest rnd (⟨kRedial, v⟩ :: ps) env =
      if stage = sRequest then matchPairs stage dest rnd ps ⟨env.drawn, env.closed + 1⟩
      else matchPairs stage dest rnd ps env := by
  have e10 : ¬ kRedial = kDest := by decide
  have e11 : ¬ kRedial = kRate := by decide
  have e12 : ¬ kRedial = kStage := by decide
  simp [matchPairs, e10, e11, e12]

theorem matchPairs_hundred (stage dest : Str) (rnd : Nat → ℚ) (hr : inRange rnd)
    (ps : List pair) (env : Env) :
    matchPairs stage dest rnd (⟨kRate, vHundred⟩ :: ps) env =
      matchPairs stage dest rnd ps ⟨env.drawn + 1, env.closed⟩ := by
  have h100 : rateOf vHundred = 100 := by decide
  rw [matchPairs_rate stage dest rnd hr ⟨kRate, vHundred⟩ ps env rfl]
  simp only [h100]
  rw [if_pos (by push_cast; exact (hr _).2)]

theorem matchPairs_nil (stage dest : Str) (rnd : Nat → ℚ) (env : Env) :
    matchPairs stage dest rnd [] env = (.matched, env) := rfl

/-! ## C7 -/

/-- C7: full match, end to end. For a destination `D` without white space, no fixed pairs
and the rule file `dest=D rate=100%`, with or without a trailing newline: `loadRules`
succeeds and installs the one rule `dest=D rate=100%`; for every sequence of samples in
`[0, 100)`, `failCommon` on the new state returns true for (`dial`, `D`) and for
(`request`, `D`), having drawn one sample, and returns false for every other destination at
both stages, having drawn none. -/
theorem full_match_end_to_end (D : Str) (hD : noSpace D) (rt : RoundTripper) (fs : FS)
    (b : Str) (hfix : rt.fixedPairs = []) (hfile : fs rt.rulesPath = .ok b)
    (hb : b = lineFull D ∨ b = lineFull D ++ ['\n']) :
    loadRules rt fs =
      (⟨rt.rulesPath, [], (rt.configRevision + 1) % 2 ^ 64, [ruleFull D]⟩, none) ∧
    ∀ (rnd : Nat → ℚ), inRange rnd → ∀ (env : Env),
      failCommon (loadRules rt fs).1 sDial D rnd env =
        (some true, ⟨env.drawn + 1, env.closed⟩) ∧
      failCommon (loadRules rt fs).1 sRequest D rnd env =
        (some true, ⟨env.drawn + 1, env.closed⟩) ∧
      ∀ D2 : Str, D2 ≠ D →
        failCommon (loadRules rt fs).1 sDial D2 rnd env = (some false, env) ∧
        failCommon (loadRules rt fs).1 sRequest D2 rnd env = (some false, env) := by
  have hlines : Split (TrimSpace b) '\n' = [lineFull D] := by
    rcases hb with h | h
    · rw [h]; exact (lines_full D hD).1
    · rw [h]; exact (lines_full D hD).2
  have hload : loadRules rt fs =
      (⟨rt.rulesPath, [], (rt.configRevision + 1) % 2 ^ 64, [ruleFull D]⟩, none) := by
    simp [loadRules, hfile, hlines, hfix, loadLines_full D hD]
  refine ⟨hload, fun rnd hr env => ?_⟩
  rw [hload]
  have hyes : ∀ stage : Str, failRules stage D rnd [ruleFull D] env =
      (some true, ⟨env.drawn + 1, env.closed⟩) := by
    intro stage
    simp [failRules, ruleFull, matchPairs_dest, matchPairs_hundred stage D rnd hr,
      matchPairs_nil]
  have hno : ∀ (stage D2 : Str), D2 ≠ D → failRules stage D2 rnd [ruleFull D] env =
      (some false, env) := by
    intro stage D2 h2
    have h3 : ¬ D = D2 := fun h => h2 h.symm
    simp [failRules, ruleFull, matchPairs_dest, h3]
  exact ⟨hyes sDial, hyes sRequest, fun D2 h2 => ⟨hno sDial D2 h2, hno sRequest D2 h2⟩⟩

/-- C7 at a concrete input: the destination `h`, the rule file `dest=h rate=100%` with a
trailing newline, and the samples 99, 99, ... -/
theorem full_match_end_to_end_witness :
    noSpace ['h'] ∧ inRange (fun _ => 99) ∧
    failCommon (loadRules (freshRoundTripper ['r'] [])
        (fun _ => .ok (lineFull ['h'] ++ ['\n']))).1 sDial ['h'] (fun _ => 99) ⟨0, 0⟩ =
      (some true, ⟨0 + 1, 0⟩) ∧
    failCommon (loadRules (freshRoundTripper ['r'] [])
        (fun _ => .ok (lineFull ['h'] ++ ['\n']))).1 sRequest ['g'] (fun _ => 99) ⟨0, 0⟩ =
      (some false, ⟨0, 0⟩) :=
  ⟨by decide, fun _ => ⟨by norm_num, by norm_num⟩,
    ((full_match_end_to_end ['h'] (by decide) (freshRoundTripper ['r'] [])
      (fun _ => .ok (lineFull ['h'] ++ ['\n'])) (lineFull ['h'] ++ ['\n']) rfl rfl
      (Or.inr rfl)).2 (fun _ => 99) (fun _ => ⟨by norm_num, by norm_num⟩) ⟨0, 0⟩).1,
    (((full_match_end_to_end ['h'] (by decide) (freshRoundTripper ['r'] [])
      (fun _ => .ok (lineFull ['h'] ++ ['\n'])) (lineFull ['h'] ++ ['\n']) rfl rfl
      (Or.inr rfl)).2 (fun _ => 99) (fun _ => ⟨by norm_num, by norm_num⟩) ⟨0, 0⟩).2.2
      ['g'] (by decide)).2⟩

/-! ## C8 -/

/-- C8: stage scoping. For a destination `D` without white space, no fixed pairs and the
rule file `dest=D rate=100% stage=dial` (with or without a trailing newline): `loadRules`
installs that one rule, and for every sequence of samples in `[0, 100)`
`failCommon("dial", D)` returns true and `failCommon("request", D)` returns false, each
having drawn one sample; so the dial hook refuses the dial to `D`, while `RoundTrip` for
host `D` hands the request on to the underlying transport. -/
theorem stage_scoping (D : Str) (hD : noSpace D) (rt : RoundTripper) (fs : FS)
    (b : Str) (hfix : rt.fixedPairs = []) (hfile : fs rt.rulesPath = .ok b)
    (hb : b = lineDial D ∨ b = lineDial D ++ ['\n']) :
    loadRules rt fs =
      (⟨rt.rulesPath, [], (rt.configRevision + 1) % 2 ^ 64, [ruleDial D]⟩, none) ∧
    ∀ (rnd : Nat → ℚ), inRange rnd → ∀ (env : Env),
      failCommon (loadRules rt fs).1 sDial D rnd env =
        (some true, ⟨env.drawn + 1, env.closed⟩) ∧
      failCommon (loadRules rt fs).1 sRequest D rnd env =
        (some false, ⟨env.drawn + 1, env.closed⟩) ∧
      (∀ network : Str, DialContext (loadRules rt fs).1 network D rnd env =
        (.failedByFlakyhttp, ⟨env.drawn + 1, env.closed⟩)) ∧
      RoundTrip (loadRules rt fs).1 D rnd env = (.delegated, ⟨env.drawn + 1, env.closed⟩) := by
  have hlines : Split (TrimSpace b) '\n' = [lineDial D] := by
    rcases hb with h | h
    · rw [h]; exact (lines_dial D hD).1
    · rw [h]; exact (lines_dial D hD).2
  have hload : loadRules rt fs =
      (⟨rt.rulesPath, [], (rt.configRevision + 1) % 2 ^ 64, [ruleDial D]⟩, none) := by
    simp [loadRules, hfile, hlines, hfix, loadLines_dial D hD]
  refine ⟨hload, fun rnd hr env => ?_⟩
  rw [hload]
  have hdial : failRules sDial D rnd [ruleDial D] env =
      (some true, ⟨env.drawn + 1, env.closed⟩) := by
    simp [failRules, ruleDial, matchPairs_dest, matchPairs_hundred sDial D rnd hr,
      matchPairs_stage, matchPairs_nil]
  have hreq : failRules sRequest D rnd [ruleDial D] env =
      (some false, ⟨env.drawn + 1, env.closed⟩) := by
    have hne : ¬ sDial = sRequest := by decide
    simp [failRules, ruleDial, matchPairs_dest, matchPairs_hundred sRequest D rnd hr,
      matchPairs_stage, hne]
  refine ⟨hdial, hreq, fun network => ?_, ?_⟩
  · simp only [DialContext, failDial, failCommon, hdial]
  · simp only [RoundTrip, failRequest, failCommon, hreq]

/-- C8 at a concrete input: the destination `h`, the rule file
`dest=h rate=100% stage=dial`, and the samples 0, 0, ... -/
theorem stage_scoping_witness :
    noSpace ['h'] ∧ inRange (fun _ => 0) ∧
    failCommon (loadRules (freshRoundTripper ['r'] [])
        (fun _ => .ok (lineDial ['h']))).1 sDial ['h'] (fun _ => 0) ⟨0, 0⟩ =
      (some true, ⟨0 + 1, 0⟩) ∧
    failCommon (loadRules (freshRoundTripper ['r'] [])
        (fun _ => .ok (lineDial ['h']))).1 sRequest ['h'] (fun _ => 0) ⟨0, 0⟩ =
      (some false, ⟨0 + 1, 0⟩) :=
  ⟨by decide, fun _ => ⟨by norm_num, by norm_num⟩,
    ((stage_scoping ['h'] (by decide) (freshRoundTripper ['r'] [])
      (fun _ => .ok (lineDial ['h'])) (lineDial ['h']) rfl rfl
      (Or.inl rfl)).2 (fun _ => 0) (fun _ => ⟨by norm_num, by norm_num⟩) ⟨0, 0⟩).1,
    ((stage_scoping ['h'] (by decide) (freshRoundTripper ['r'] [])
      (fun _ => .ok (lineDial ['h'])) (lineDial ['h']) rfl rfl
      (Or.inl rfl)).2 (fun _ => 0) (fun _ => ⟨by norm_num, by norm_num⟩) ⟨0, 0⟩).2.1⟩

/-! ## C9 -/

/-- C9: redial forcing. For a destination `D` without white space, no fixed pairs and the
rule file with the two lines `dest=D rate=100% stage=dial` and
`dest=D stage=request redial=force`, in that order: `loadRules` installs the two rules
(the second stored in key order `dest`, `redial`, `stage`), and for every sequence of
samples in `[0, 100)` the request-stage evaluation for `D` leaves the first rule at its
`stage` pair, calls `CloseIdleConnections` once on the second and returns true, so
`RoundTrip` for host `D` fails; and the dial-stage evaluation for `D` returns true without
closing connections, so the dial hook refuses a dial to `D`. -/
theorem redial_forcing (D : Str) (hD : noSpace D) (rt : RoundTripper) (fs : FS)
    (hfix : rt.fixedPairs = [])
    (hfile : fs rt.rulesPath = .ok (lineDial D ++ '\n' :: lineRedial D)) :
    loadRules rt fs =
      (⟨rt.rulesPath, [], (rt.configRevision + 1) % 2 ^ 64, [ruleDial D, ruleRedial D]⟩,
        none) ∧
    ∀ (rnd : Nat → ℚ), inRange rnd → ∀ (env : Env),
      failCommon (loadRules rt fs).1 sRequest D rnd env =
        (some true, ⟨env.drawn + 1, env.closed + 1⟩) ∧
      RoundTrip (loadRules rt fs).1 D rnd env =
        (.failedByFlakyhttp, ⟨env.drawn + 1, env.closed + 1⟩) ∧
      failCommon (loadRules rt fs).1 sDial D rnd env =
        (some true, ⟨env.drawn + 1, env.closed⟩) ∧
      (∀ network : Str, DialContext (loadRules rt fs).1 network D rnd env =
        (.failedByFlakyhttp, ⟨env.drawn + 1, env.closed⟩)) := by
  have hload : loadRules rt fs =
      (⟨rt.rulesPath, [], (rt.configRevision + 1) % 2 ^ 64, [ruleDial D, ruleRedial D]⟩,
        none) := by
    simp [loadRules, hfile, lines_dial_redial D hD, hfix, loadLines_dial_redial D hD]
  refine ⟨hload, fun rnd hr env => ?_⟩
  rw [hload]
  have hdial : failRules sDial D rnd [ruleDial D, ruleRedial D] env =
      (some true, ⟨env.drawn + 1, env.closed⟩) := by
    simp [failRules, ruleDial, matchPairs_dest, matchPairs_hundred sDial D rnd hr,
      matchPairs_stage, matchPairs_nil]
  have hreq : failRules sRequest D rnd [ruleDial D, ruleRedial D] env =
      (some true, ⟨env.drawn + 1, env.closed + 1⟩) := by
    have hne : ¬ sDial = sRequest := by decide
    simp [failRules, ruleDial, ruleRedial, matchPairs_dest,
      matchPairs_hundred sRequest D rnd hr, matchPairs_stage, matchPairs_redial,
      matchPairs_nil, hne]
  refine ⟨hreq, ?_, hdial, fun network => ?_⟩
  · simp only [RoundTrip, failRequest, failCommon, hreq]
  · simp only [DialContext, failDial, failCommon, hdial]

/-- C9 at a concrete input: the destination `h`, the two-line rule file, and the samples
50, 50, ... -/
theorem redial_forcing_witness :
    noSpace ['h'] ∧ inRange (fun _ => 50) ∧
    RoundTrip (loadRules (freshRoundTripper ['r'] [])
        (fun _ => .ok (lineDial ['h'] ++ '\n' :: lineRedial ['h']))).1 ['h'] (fun _ => 50)
        ⟨0, 0⟩ =
      (.failedByFlakyhttp, ⟨0 + 1, 0 + 1⟩) ∧
    failCommon (loadRules (freshRoundTripper ['r'] [])
        (fun _ => .ok (lineDial ['h'] ++ '\n' :: lineRedial ['h']))).1 sDial ['h']
        (fun _ => 50) ⟨0, 0⟩ =
      (some true, ⟨0 + 1, 0⟩) :=
  ⟨by decide, fun _ => ⟨by norm_num, by norm_num⟩,
    ((redial_forcing ['h'] (by decide) (freshRoundTripper ['r'] [])
      (fun _ => .ok (lineDial ['h'] ++ '\n' :: lineRedial ['h'])) rfl rfl).2
      (fun _ => 50) (fun _ => ⟨by norm_num, by norm_num⟩) ⟨0, 0⟩).2.1,
    ((redial_forcing ['h'] (by decide) (freshRoundTripper ['r'] [])
      (fun _ => .ok (lineDial ['h'] ++ '\n' :: lineRedial ['h'])) rfl rfl).2
      (fun _ => 50) (fun _ => ⟨by norm_num, by norm_num⟩) ⟨0, 0⟩).2.2.1⟩

/-! ## C11 -/

theorem handleEvent_eq_self (rt : RoundTripper) (ev : Str × FS)
    (h : ¬ (ev.1 = rt.rulesPath ∧ (loadRules rt ev.2).2 = none)) :
    handleEvent rt ev.1 ev.2 = rt := by
  unfold handleEvent
  by_cases hp : ev.1 = rt.rulesPath
  · have hl : (loadRules rt ev.2).2 ≠ none := fun hl => h ⟨hp, hl⟩
    simp [hp, loadRules_error_state rt ev.2 hl]
  · simp [hp]

theorem succ_mod_ne (n : Nat) : (n + 1) % 2 ^ 64 ≠ n := by
  omega

theorem Await_blocked (rt : RoundTripper) (evs : List (Str × FS))
    (h : successfulLoads rt evs = 0) :
    (handleConfigUpdates rt evs).configRevision = rt.configRevision ∧
    (rt.ConfigChangeAwaiter).Await (rt :: statesAfter rt evs) = none := by
  induction evs with
  | nil => simp [handleConfigUpdates, statesAfter, ConfigChangeAwaiter.Await,
      RoundTripper.ConfigChangeAwaiter]
  | cons ev evs ih =>
    have hs : successfulLoads rt (ev :: evs) =
        successfulLoads rt evs +
          (if ev.1 = rt.rulesPath ∧ (loadRules rt ev.2).2 = none then 1 else 0) := by
      simp only [successfulLoads, List.countP_cons, decide_eq_true_eq]
    have hev : ¬ (ev.1 = rt.rulesPath ∧ (loadRules rt ev.2).2 = none) := by
      intro hev; rw [hs, if_pos hev] at h; omega
    rw [hs, if_neg hev] at h
    have hself := handleEvent_eq_self rt ev hev
    obtain ⟨ih1, ih2⟩ := ih h
    refine ⟨by simp only [handleConfigUpdates, hself]; exact ih1, ?_⟩
    simp only [statesAfter, hself]
    simp only [ConfigChangeAwaiter.Await, RoundTripper.ConfigChangeAwaiter, if_true] at ih2 ⊢
    exact ih2

theorem Await_woken (rt : RoundTripper)
    (evs : List (Str × FS)) (h : 0 < successfulLoads rt evs) :
    (rt.ConfigChangeAwaiter).Await (rt :: statesAfter rt evs) = some none := by
  induction evs with
  | nil => simp [successfulLoads] at h
  | cons ev evs ih =>
    have hs : successfulLoads rt (ev :: evs) =
        successfulLoads rt evs +
          (if ev.1 = rt.rulesPath ∧ (loadRules rt ev.2).2 = none then 1 else 0) := by
      simp only [successfulLoads, List.countP_cons, decide_eq_true_eq]
    by_cases hev : ev.1 = rt.rulesPath ∧ (loadRules rt ev.2).2 = none
    · have hr := handleEvent_revision rt ev
      rw [if_pos hev] at hr
      have hne : (handleEvent rt ev.1 ev.2).configRevision ≠ rt.configRevision := by
        rw [hr]; exact succ_mod_ne _
      simp [statesAfter, ConfigChangeAwaiter.Await, RoundTripper.ConfigChangeAwaiter, hne]
    · rw [hs, if_neg hev] at h
      have hself := handleEvent_eq_self rt ev hev
      have ih2 := ih h
      simp only [statesAfter, hself]
      simp only [ConfigChangeAwaiter.Await, RoundTripper.ConfigChangeAwaiter, if_true] at ih2 ⊢
      exact ih2

/-- C11: reload propagation to waiters. For an awaiter made by `ConfigChangeAwaiter()` in a
state `rt`: after one successful `loadRules` the revision
differs from the captured `oldRevision`, so `Await` returns `nil` as soon as it sees that
state, and `failCommon` on that state evaluates the rule list just loaded from the file;
while only failed loads and ignored events have occurred the revision still equals
`oldRevision` and `Await` is still waiting; and a run of the watch loop with at least one
successful load lets `Await` return `nil`. -/
theorem reload_wakes_awaiter (rt : RoundTripper) :
    (∀ (fs : FS) (b : Str), fs rt.rulesPath = .ok b → (loadRules rt fs).2 = none →
      (loadRules rt fs).1.configRevision ≠ (rt.ConfigChangeAwaiter).oldRevision ∧
      (∀ later, (rt.ConfigChangeAwaiter).Await ((loadRules rt fs).1 :: later) = some none) ∧
      (∀ later, (rt.ConfigChangeAwaiter).Await (rt :: (loadRules rt fs).1 :: later) =
        some none) ∧
      ∃ rules, loadLines rt.fixedPairs (Split (TrimSpace b) '\n') [] = .ok rules ∧
        ∀ (stage dest : Str) (rnd : Nat → ℚ) (env : Env),
          failCommon (loadRules rt fs).1 stage dest rnd env =
            failRules stage dest rnd rules env) ∧
    (∀ evs : List (Str × FS), successfulLoads rt evs = 0 →
      (handleConfigUpdates rt evs).configRevision = (rt.ConfigChangeAwaiter).oldRevision ∧
      (rt.ConfigChangeAwaiter).Await (rt :: statesAfter rt evs) = none) ∧
    (∀ evs : List (Str × FS), 0 < successfulLoads rt evs →
      (rt.ConfigChangeAwaiter).Await (rt :: statesAfter rt evs) = some none) := by
  refine ⟨fun fs b hf hok => ?_, fun evs h => Await_blocked rt evs h,
    fun evs h => Await_woken rt evs h⟩
  have hne : (loadRules rt fs).1.configRevision ≠ rt.configRevision := by
    rw [loadRules_revision_ok rt fs hok]; exact succ_mod_ne _
  refine ⟨hne, fun later => ?_, fun later => ?_, ?_⟩
  · simp [ConfigChangeAwaiter.Await, RoundTripper.ConfigChangeAwaiter, hne]
  · simp [ConfigChangeAwaiter.Await, RoundTripper.ConfigChangeAwaiter, hne]
  · unfold loadRules at hok ⊢
    rw [hf] at hok ⊢
    simp only [] at hok ⊢
    cases hl : loadLines rt.fixedPairs (Split (TrimSpace b) '\n') [] with
    | error e => rw [hl] at hok; simp at hok
    | ok rules => exact ⟨rules, rfl, fun _ _ _ _ => rfl⟩

/-- C11 at a concrete input: from `c1State` (revision 3) the events bad, other path leave
the awaiter waiting, and the events bad, other path, good wake it. -/
theorem reload_wakes_awaiter_witness :
    (c1State.ConfigChangeAwaiter).Await (c1State :: statesAfter c1State [c10Bad, c10Other]) =
      none ∧
    (c1State.ConfigChangeAwaiter).Await
      (c1State :: statesAfter c1State [c10Bad, c10Other, c10Good]) = some none :=
  ⟨((reload_wakes_awaiter c1State).2.1 [c10Bad, c10Other] (by decide)).2,
    (reload_wakes_awaiter c1State).2.2 [c10Bad, c10Other, c10Good] (by decide)⟩

/-! ## C12 -/

theorem IndexByte_none_iff (p : Str) (c : Char) : IndexByte p c = none ↔ c ∉ p := by
  induction p with
  | nil => simp [IndexByte]
  | cons x xs ih =>
    by_cases hx : x = c
    · simp [IndexByte, hx]
    · have hx2 : ¬ c = x := fun h => hx h.symm
      simp [IndexByte, hx, hx2, ih]

theorem IndexByte_split (p : Str) (idx : Nat) (h : IndexByte p '=' = some idx) :
    (⟨p.take idx, p.drop (idx + 1)⟩ : pair) = splitAtEq p := by
  induction p generalizing idx with
  | nil => simp [IndexByte] at h
  | cons x xs ih =>
    by_cases hx : x = '='
    · simp only [IndexByte, hx, if_true, Option.some.injEq] at h
      subst h
      simp [splitAtEq, hx]
    · simp only [IndexByte, hx, if_false, Option.map_eq_some'] at h
      obtain ⟨j, hj, hidx⟩ := h
      subst hidx
      have := ih j hj
      simp only [splitAtEq, pair.mk.injEq] at this ⊢
      simp [hx, this.1, this.2]

theorem parseParts_eq (ps : List Str) (m : List pair) :
    parseParts ps m =
      match ps.findSome? tokenError with
      | some e => .error e
      | none => .ok (ps.foldl (fun m p => mapSet m (splitAtEq p).key (splitAtEq p).value) m) := by
  induction ps generalizing m with
  | nil => simp [parseParts]
  | cons p ps ih =>
    simp only [parseParts, List.findSome?_cons, tokenError, List.foldl_cons]
    cases hi : IndexByte p '=' with
    | none => simp
    | some idx =>
      have hsp := IndexByte_split p idx hi
      have hkey : (splitAtEq p).key = List.take idx p := by rw [← hsp]
      have hval : (splitAtEq p).value = List.drop (idx + 1) p := by rw [← hsp]
      simp only []
      by_cases hk : List.take idx p = kRate
      · simp only [hk, if_true]
        cases hp : (ParseInt (TrimSuffix (List.drop (idx + 1) p) sPercent)).2 with
        | some e => simp
        | none =>
          simp only [Option.map_none']
          rw [ih, hkey, hval, hk]
      · simp only [hk, if_false]
        rw [ih, hkey, hval]

theorem loadLines_error_eq (F : List pair) (lines : List Str) (acc : List configRule) :
    (match loadLines F lines acc with
      | .error e => some e
      | .ok _ => none) = firstTokenError lines := by
  induction lines generalizing acc with
  | nil => simp [loadLines, firstTokenError, allTokens]
  | cons line rest ih =>
    simp only [loadLines, firstTokenError, allTokens, List.flatMap_cons, List.findSome?_append]
    rw [parseParts_eq]
    cases hf : (Split line ' ').findSome? tokenError with
    | some e => simp
    | none =>
      simp only [Option.or_none, Option.none_or]
      cases applyFixed F _ with
      | none => simpa [firstTokenError, allTokens] using ih acc
      | some m => simpa [firstTokenError, allTokens] using ih _

theorem loadRules_error_eq (rt : RoundTripper) (fs : FS) (b : Str)
    (hf : fs rt.rulesPath = .ok b) :
    (loadRules rt fs).2 = firstTokenError (Split (TrimSpace b) '\n') := by
  rw [← loadLines_error_eq rt.fixedPairs _ []]
  unfold loadRules
  rw [hf]
  simp only []
  cases loadLines rt.fixedPairs (Split (TrimSpace b) '\n') [] <;> rfl

/-- C12, amended: token format. The token loop splits every token at its first `'='`
into the key (the text before it) and the value (everything after it, which may hold
further `'='`), so `dest=a=b` is the pair (`dest`, `a=b`); the error of `loadRules` on a
readable file is the error of the first token, in file order, that raises one; so if some
token of some line has no `'='`, `loadRules` returns an error and installs nothing, and the
error is the malformed-pair error when no `rate` token with a value that does not parse
stands before the first such token, in particular when every error of a token of the file
is the malformed-pair error. -/
theorem token_format (rt : RoundTripper) (fs : FS) (b : Str)
    (hf : fs rt.rulesPath = .ok b) :
    (∀ (ps : List Str) (m m1 : List pair), parseParts ps m = .ok m1 →
      m1 = ps.foldl (fun m p => mapSet m (splitAtEq p).key (splitAtEq p).value) m) ∧
    (splitAtEq lineTwoEq = ⟨kDest, ['a', '=', 'b']⟩ ∧
      loadLines [] [lineTwoEq] [] = .ok [⟨[⟨kDest, ['a', '=', 'b']⟩]⟩]) ∧
    (loadRules rt fs).2 = firstTokenError (Split (TrimSpace b) '\n') ∧
    ((∃ line ∈ Split (TrimSpace b) '\n', ∃ p ∈ Split line ' ', '=' ∉ p) →
      (loadRules rt fs).2 ≠ none ∧ (loadRules rt fs).1 = rt ∧
      ((∀ line ∈ Split (TrimSpace b) '\n', ∀ p ∈ Split line ' ', ∀ e,
          tokenError p = some e → e = .malformedPair) →
        (loadRules rt fs).2 = some .malformedPair)) := by
  refine ⟨fun ps m m1 h => ?_, ⟨by decide, rfl⟩, loadRules_error_eq rt fs b hf, ?_⟩
  · rw [parseParts_eq] at h
    cases hfs : ps.findSome? tokenError with
    | some e => rw [hfs] at h; simp at h
    | none => rw [hfs] at h; exact (Except.ok.inj h).symm
  · rintro ⟨line, hl, p, hp, hne⟩
    have herr : (loadRules rt fs).2 ≠ none := by
      rw [loadRules_error_iff]
      right
      refine ⟨b, hf, fun hw => ?_⟩
      have := hw line hl p hp
      simp [tokenError, (IndexByte_none_iff p '=').2 hne] at this
    refine ⟨herr, loadRules_error_state rt fs herr, fun hall => ?_⟩
    rw [loadRules_error_eq rt fs b hf] at herr ⊢
    cases hfe : firstTokenError (Split (TrimSpace b) '\n') with
    | none => exact absurd hfe herr
    | some e =>
      obtain ⟨tok, htok, he⟩ := List.exists_of_findSome?_eq_some hfe
      simp only [allTokens, List.mem_flatMap] at htok
      obtain ⟨line2, hl2, hp2⟩ := htok
      rw [hall line2 hl2 tok hp2 e he]

/-- C12 at a concrete input: the file with the lines `dest=b` and `foo`. -/
theorem token_format_witness :
    (loadRules c1State
      (fun _ => .ok ['d', 'e', 's', 't', '=', 'b', '\n', 'f', 'o', 'o'])).2 =
      some .malformedPair :=
  ((token_format c1State (fun _ => .ok ['d', 'e', 's', 't', '=', 'b', '\n', 'f', 'o', 'o'])
    ['d', 'e', 's', 't', '=', 'b', '\n', 'f', 'o', 'o'] rfl).2.2.2
    ⟨['f', 'o', 'o'], by decide, ['f', 'o', 'o'], by decide, by decide⟩).2.2 (by decide)

/-- C12 as stated fails when a `rate` token that does not parse stands before the token
without `'='`: on the file `rate=x foo` the token `foo` has no `'='`, yet `loadRules`
returns the syntax error of `ParseInt`, not the malformed-pair error. -/
theorem token_format_counterexample :
    (∃ line ∈ Split (TrimSpace lineRateThenBare) '\n', ∃ p ∈ Split line ' ', '=' ∉ p) ∧
    (loadRules c1State (fun _ => .ok lineRateThenBare)).2 = some (.num .errSyn) ∧
    (loadRules c1State (fun _ => .ok lineRateThenBare)).2 ≠ some .malformedPair := by
  refine ⟨⟨lineRateThenBare, by decide, ['f', 'o', 'o'], by decide, by decide⟩,
    by decide, by decide⟩

/-! ## C13 -/

theorem dropWhile_append_left (p : Char → Bool) (w x : Str) (hw : ∀ c ∈ w, p c = true) :
    (w ++ x).dropWhile p = x.dropWhile p := by
  induction w with
  | nil => rfl
  | cons c cs ih =>
    have hc : p c = true := hw c (List.mem_cons_self _ _)
    simp only [List.cons_append, List.dropWhile_cons, hc, if_true]
    exact ih (fun d hd => hw d (List.mem_cons_of_mem _ hd))

theorem dropWhile_append_right (p : Char → Bool) (x w : Str) (hx : x.dropWhile p ≠ []) :
    (x ++ w).dropWhile p = x.dropWhile p ++ w := by
  induction x with
  | nil => simp at hx
  | cons c cs ih =>
    by_cases hc : p c = true
    · simp only [List.cons_append, List.dropWhile_cons, hc, if_true] at hx ⊢
      exact ih hx
    · simp only [List.cons_append, List.dropWhile_cons, hc]
      rfl

theorem rdropWhile_append (p : Char → Bool) (x w : Str) (hw : ∀ c ∈ w, p c = true) :
    (x ++ w).rdropWhile p = x.rdropWhile p := by
  unfold List.rdropWhile
  rw [List.reverse_append, dropWhile_append_left p _ _ (fun c hc => hw c (List.mem_reverse.1 hc))]

theorem TrimSpace_surrounded (w1 b w2 : Str) (h1 : ∀ c ∈ w1, isSpace c = true)
    (h2 : ∀ c ∈ w2, isSpace c = true) : TrimSpace (w1 ++ b ++ w2) = TrimSpace b := by
  unfold TrimSpace
  rw [List.append_assoc, dropWhile_append_left isSpace w1 _ h1]
  by_cases hb : b.dropWhile isSpace = []
  · have hall : ∀ c ∈ b ++ w2, isSpace c = true := by
      intro c hc
      rcases List.mem_append.1 hc with h | h
      · exact (List.dropWhile_eq_nil_iff.1 hb) c h
      · exact h2 c h
    rw [hb, List.dropWhile_eq_nil_iff.2 hall]
  · rw [dropWhile_append_right isSpace b w2 hb, rdropWhile_append isSpace _ w2 h2]

/-- C13, amended: the parser trims the white space around the whole input and splits the
rest at newlines, each piece being one rule line, taken as it is. White space before the
first line and after the last line is ignored: for every file content, putting blank
lines or spaces before its start or after its end gives the same lines and the same result
of `loadRules` (the same rule set and revision, or the same error). -/
theorem whole_file_is_trimmed (rt : RoundTripper) (fs1 fs2 : FS) (b w1 w2 : Str)
    (h1 : ∀ c ∈ w1, isSpace c = true) (h2 : ∀ c ∈ w2, isSpace c = true)
    (hf1 : fs1 rt.rulesPath = .ok b) (hf2 : fs2 rt.rulesPath = .ok (w1 ++ b ++ w2)) :
    Split (TrimSpace (w1 ++ b ++ w2)) '\n' = Split (TrimSpace b) '\n' ∧
    loadRules rt fs2 = loadRules rt fs1 := by
  have ht := TrimSpace_surrounded w1 b w2 h1 h2
  refine ⟨by rw [ht], ?_⟩
  unfold loadRules
  rw [hf1, hf2]
  simp only [ht]

/-- C13 at a concrete input: the file `dest=b` with a blank line and spaces before it and
newlines after it loads like `dest=b`. -/
theorem whole_file_is_trimmed_witness :
    loadRules c1State (fun _ => .ok (['\n', ' ', ' '] ++ ['d', 'e', 's', 't', '=', 'b'] ++
      [' ', '\n', '\n'])) = loadRules c1State c1Good :=
  (whole_file_is_trimmed c1State c1Good
    (fun _ => .ok (['\n', ' ', ' '] ++ ['d', 'e', 's', 't', '=', 'b'] ++ [' ', '\n', '\n']))
    ['d', 'e', 's', 't', '=', 'b'] ['\n', ' ', ' '] [' ', '\n', '\n']
    (by decide) (by decide) rfl rfl).2

/-- C13 as stated fails: the rule lines `dest=a` and `dest=b` load as two rules, but with a
blank line between them, or with a space appended to the first line, `loadRules` returns
the malformed-pair error (the blank line, and the piece after the trailing space, is an
empty token) and installs nothing. -/
theorem whole_file_is_trimmed_counterexample :
    loadRules c1State (fun _ => .ok fileTwoRules) =
      (⟨['r'], [], 4, [⟨[⟨kDest, ['a']⟩]⟩, ⟨[⟨kDest, ['b']⟩]⟩]⟩, none) ∧
    loadRules c1State (fun _ => .ok fileBlankBetween) = (c1State, some .malformedPair) ∧
    loadRules c1State (fun _ => .ok fileSpaceAfterLine) = (c1State, some .malformedPair) := by
  refine ⟨by decide, by decide, by decide⟩

/-! ## C14 -/

/-- C14 (the code departs from the claim): a token with an empty key is not rejected. On
the rule file `=foo`, `IndexByte` is 0, the key is the empty string and no check looks at
it (the code says `TODO(later): validate key is known`): `loadRules` succeeds and stores a
rule with the pair of the empty key and `foo`, `NewRoundTripper` returns that instance, and
every later `failCommon` on it runs into the `BUG: unexpected pair` branch. -/
theorem empty_key_is_accepted :
    tokenError fileEmptyKey = none ∧
    loadRules (freshRoundTripper ['r'] []) (fun _ => .ok fileEmptyKey) =
      (⟨['r'], [], 1, [⟨[⟨[], ['f', 'o', 'o']⟩]⟩]⟩, none) ∧
    NewRoundTripper ['r'] [] true (fun _ => .ok fileEmptyKey) =
      .ok ⟨['r'], [], 1, [⟨[⟨[], ['f', 'o', 'o']⟩]⟩]⟩ ∧
    ∀ (stage dest : Str) (rnd : Nat → ℚ) (env : Env),
      failCommon ⟨['r'], [], 1, [⟨[⟨[], ['f', 'o', 'o']⟩]⟩]⟩ stage dest rnd env =
        (none, env) :=
  ⟨by decide, by decide, rfl, fun _ _ _ _ => rfl⟩

/-! ## C17 -/

/-- C17 (the code departs from the claim): the fatal branch of the matcher is reachable on
input that `loadRules` accepts, because the parser checks no key. The rule file `foo=bar`
loads without error and every `failCommon` on the new state ends in the
`BUG: unexpected pair` branch; and on an instance without fixed pairs the rule line
`tag=node1 rate=100%`, written for a tagged instance, loads as the rule
`rate=100% tag=node1` and ends `failCommon` in that branch once the rate pair has passed. -/
theorem fatal_branch_is_reachable :
    loadRules (freshRoundTripper ['r'] []) (fun _ => .ok fileUnknownKey) =
      (⟨['r'], [], 1, [⟨[⟨['f', 'o', 'o'], ['b', 'a', 'r']⟩]⟩]⟩, none) ∧
    (∀ (stage dest : Str) (rnd : Nat → ℚ) (env : Env),
      failCommon (loadRules (freshRoundTripper ['r'] []) (fun _ => .ok fileUnknownKey)).1
        stage dest rnd env = (none, env)) ∧
    loadRules (freshRoundTripper ['r'] []) (fun _ => .ok lineNode1) =
      (⟨['r'], [], 1, [⟨[⟨kRate, ['1', '0', '0', '%']⟩, ⟨kTag, vNode1⟩]⟩]⟩, none) ∧
    (∀ (stage dest : Str),
      failCommon (loadRules (freshRoundTripper ['r'] []) (fun _ => .ok lineNode1)).1
        stage dest (fun _ => 0) ⟨0, 0⟩ = (none, ⟨1, 0⟩)) := by
  have h1 : loadRules (freshRoundTripper ['r'] []) (fun _ => .ok fileUnknownKey) =
      (⟨['r'], [], 1, [⟨[⟨['f', 'o', 'o'], ['b', 'a', 'r']⟩]⟩]⟩, none) := by decide
  have h2 : loadRules (freshRoundTripper ['r'] []) (fun _ => .ok lineNode1) =
      (⟨['r'], [], 1, [⟨[⟨kRate, ['1', '0', '0', '%']⟩, ⟨kTag, vNode1⟩]⟩]⟩, none) := by decide
  refine ⟨h1, fun stage dest rnd env => ?_, h2, fun stage dest => ?_⟩
  · rw [h1]; rfl
  · rw [h2]
    have hr : inRange (fun _ => (0 : ℚ)) := fun _ => ⟨by norm_num, by norm_num⟩
    have e1 : ¬ kTag = kDest := by decide
    have e2 : ¬ kTag = kRate := by decide
    have e3 : ¬ kTag = kStage := by decide
    have e4 : ¬ kTag = kRedial := by decide
    simp only [failCommon, failRules]
    rw [matchPairs_hundred stage dest _ hr]
    simp [matchPairs, e1, e2, e3, e4]

/-! ## C15 -/

theorem mapGet_mapSet (m : List pair) (k v k2 : Str) :
    mapGet (mapSet m k v) k2 = if k2 = k then some v else mapGet m k2 := by
  induction m with
  | nil =>
    by_cases h : k2 = k
    · simp [mapSet, mapGet, h]
    · have h2 : ¬ k = k2 := fun e => h e.symm
      simp [mapSet, mapGet, h, h2]
  | cons p ps ih =>
    by_cases hp : p.key = k
    · by_cases h : k2 = k
      · simp [mapSet, mapGet, hp, h]
      · have h2 : ¬ k = k2 := fun e => h e.symm
        have h3 : ¬ p.key = k2 := fun e => h (e.symm.trans hp)
        simp [mapSet, mapGet, hp, h, h2, h3]
    · by_cases h3 : p.key = k2
      · have h : ¬ k2 = k := fun e => hp (h3.trans e)
        simp [mapSet, mapGet, hp, h3, h]
      · simp [mapSet, mapGet, hp, h3, ih]

theorem mem_mapSet (m : List pair) (k v : Str) (q : pair) (h : q ∈ mapSet m k v) :
    q = ⟨k, v⟩ ∨ q ∈ m := by
  induction m with
  | nil => left; simpa [mapSet] using h
  | cons p ps ih =>
    by_cases hp : p.key = k
    · simp only [mapSet, hp, if_true, List.mem_cons] at h
      rcases h with h | h
      · exact Or.inl h
      · exact Or.inr (List.mem_cons_of_mem _ h)
    · simp only [mapSet, hp, if_false, List.mem_cons] at h
      rcases h with h | h
      · exact Or.inr (h ▸ List.mem_cons_self _ _)
      · rcases ih h with h2 | h2
        · exact Or.inl h2
        · exact Or.inr (List.mem_cons_of_mem _ h2)

theorem mapSet_keys_nodup (m : List pair) (k v : Str) (h : (m.map pair.key).Nodup) :
    ((mapSet m k v).map pair.key).Nodup := by
  induction m with
  | nil => simp [mapSet]
  | cons p ps ih =>
    rw [List.map_cons, List.nodup_cons] at h
    by_cases hp : p.key = k
    · simp only [mapSet, hp, if_true, List.map_cons, List.nodup_cons]
      exact ⟨hp ▸ h.1, h.2⟩
    · simp only [mapSet, hp, if_false, List.map_cons, List.nodup_cons]
      refine ⟨fun hmem => ?_, ih h.2⟩
      obtain ⟨q, hq, hqk⟩ := List.mem_map.1 hmem
      rcases mem_mapSet ps k v q hq with h2 | h2
      · rw [h2] at hqk; exact hp hqk.symm
      · exact h.1 (hqk ▸ List.mem_map_of_mem _ h2)

theorem foldl_setToken_nodup (ps : List Str) (m : List pair) (h : (m.map pair.key).Nodup) :
    ((ps.foldl setToken m).map pair.key).Nodup := by
  induction ps generalizing m with
  | nil => exact h
  | cons p ps ih => exact ih _ (mapSet_keys_nodup m _ _ h)

theorem mapGet_foldl_of_not_key (ps : List Str) (m : List pair) (k : Str)
    (h : ∀ q ∈ ps, (splitAtEq q).key ≠ k) :
    mapGet (ps.foldl setToken m) k = mapGet m k := by
  induction ps generalizing m with
  | nil => rfl
  | cons p ps ih =>
    rw [List.foldl_cons, ih _ (fun q hq => h q (List.mem_cons_of_mem _ hq))]
    have hk : ¬ k = (splitAtEq p).key := fun e => h p (List.mem_cons_self _ _) e.symm
    simp [setToken, mapGet_mapSet, hk]

theorem mapGet_foldl_last (pre : List Str) (p : Str) (post : List Str) (m : List pair)
    (h : ∀ q ∈ post, (splitAtEq q).key ≠ (splitAtEq p).key) :
    mapGet ((pre ++ p :: post).foldl setToken m) (splitAtEq p).key =
      some (splitAtEq p).value := by
  rw [List.foldl_append, List.foldl_cons, mapGet_foldl_of_not_key post _ _ h]
  simp [setToken, mapGet_mapSet]

theorem filter_key_of_mapGet (m : List pair) (k v : Str) (hn : (m.map pair.key).Nodup)
    (hg : mapGet m k = some v) : m.filter (fun q => decide (q.key = k)) = [⟨k, v⟩] := by
  induction m with
  | nil => simp [mapGet] at hg
  | cons p ps ih =>
    rw [List.map_cons, List.nodup_cons] at hn
    by_cases hp : p.key = k
    · simp only [mapGet, hp, if_true, Option.some.injEq] at hg
      have hrest : ps.filter (fun q => decide (q.key = k)) = [] := by
        rw [List.filter_eq_nil_iff]
        intro q hq hqk
        have : q.key = k := by simpa using hqk
        exact hn.1 (hp ▸ this ▸ List.mem_map_of_mem _ hq)
      have hpe : p = ⟨k, v⟩ := by
        cases p; simp only [pair.mk.injEq]; exact ⟨hp, hg⟩
      simp [List.filter_cons, hp, hrest, hpe]
    · simp only [mapGet, hp, if_false] at hg
      simp [List.filter_cons, hp, ih hn.2 hg]

theorem parseParts_ok_foldl (ps : List Str) (m m1 : List pair) (h : parseParts ps m = .ok m1) :
    m1 = ps.foldl setToken m := by
  rw [parseParts_eq] at h
  cases hfs : ps.findSome? tokenError with
  | some e => rw [hfs] at h; simp at h
  | none => rw [hfs] at h; exact (Except.ok.inj h).symm

/-- C15, amended: duplicate keys within one rule line are resolved as last-wins. For every
line all of whose tokens pass validation and every token `p` of it after which no token
has the same key: the map `byKey` of the line holds the key of `p` exactly once, with the
value of `p`; and if the line contributes a rule and the key is not a key of the fixed
pairs, the stored rule contains that key exactly once, with the value of `p` (a key of
the fixed pairs is removed from the rule). -/
theorem duplicate_keys_last_wins (F : List pair) (line : Str) (byKey : List pair)
    (pre : List Str) (p : Str) (post : List Str)
    (hparse : parseParts (Split line ' ') [] = .ok byKey)
    (htok : Split line ' ' = pre ++ p :: post)
    (hlast : ∀ q ∈ post, (splitAtEq q).key ≠ (splitAtEq p).key) :
    byKey.filter (fun q => decide (q.key = (splitAtEq p).key)) = [splitAtEq p] ∧
    (∀ r, lineRule F line = some r → (splitAtEq p).key ∉ F.map pair.key →
      r.pairs.filter (fun q => decide (q.key = (splitAtEq p).key)) = [splitAtEq p]) ∧
    (∀ r, lineRule F line = some r → (splitAtEq p).key ∈ F.map pair.key →
      r.pairs.filter (fun q => decide (q.key = (splitAtEq p).key)) = []) := by
  have hfold := parseParts_ok_foldl _ _ _ hparse
  have hnd : (byKey.map pair.key).Nodup := by
    rw [hfold]; exact foldl_setToken_nodup _ _ (by simp)
  have hget : mapGet byKey (splitAtEq p).key = some (splitAtEq p).value := by
    rw [hfold, htok]; exact mapGet_foldl_last pre p post [] hlast
  have hby := filter_key_of_mapGet byKey _ _ hnd hget
  have hrule : ∀ r, lineRule F line = some r →
      r.pairs = sortPairs (byKey.filter (fun q => decide (q.key ∉ F.map pair.key))) := by
    intro r hr
    simp only [lineRule, hparse] at hr
    cases hf : applyFixed F byKey with
    | none => rw [hf] at hr; simp at hr
    | some m =>
      rw [hf] at hr
      simp only [Option.map_some', Option.some.injEq] at hr
      rw [← hr, applyFixed_some F byKey m hf]
  refine ⟨hby, fun r hr hk => ?_, fun r hr hk => ?_⟩
  · have hperm := (sortPairs_perm
      (byKey.filter (fun q => decide (q.key ∉ F.map pair.key)))).filter
      (fun q => decide (q.key = (splitAtEq p).key))
    rw [List.filter_filter] at hperm
    have hsame : byKey.filter (fun a => decide (a.key = (splitAtEq p).key) &&
        decide (a.key ∉ F.map pair.key)) =
        byKey.filter (fun q => decide (q.key = (splitAtEq p).key)) := by
      apply List.filter_congr
      intro q _
      by_cases hq : q.key = (splitAtEq p).key
      · simp [hq, hk]
      · simp [hq]
    rw [hsame, hby] at hperm
    rw [hrule r hr]
    exact List.perm_singleton.1 hperm
  · rw [hrule r hr, List.filter_eq_nil_iff]
    intro q hq hqk
    have hq2 := (List.mem_filter.1 ((sortPairs_perm _).mem_iff.1 hq)).2
    have hqk2 : q.key = (splitAtEq p).key := by simpa using hqk
    rw [hqk2] at hq2
    simp [hk] at hq2

/-- C15 at a concrete input: the line `dest=a rate=5 dest=b` without fixed pairs keeps
`dest` once, with the value `b`. -/
theorem duplicate_keys_last_wins_witness :
    lineRule [] lineDupDest = some ⟨[⟨kDest, ['b']⟩, ⟨kRate, ['5']⟩]⟩ ∧
    (⟨[⟨kDest, ['b']⟩, ⟨kRate, ['5']⟩]⟩ : configRule).pairs.filter
      (fun q => decide (q.key = (splitAtEq ['d', 'e', 's', 't', '=', 'b']).key)) =
      [splitAtEq ['d', 'e', 's', 't', '=', 'b']] :=
  ⟨by decide,
    (duplicate_keys_last_wins [] lineDupDest [⟨kDest, ['b']⟩, ⟨kRate, ['5']⟩]
      [['d', 'e', 's', 't', '=', 'a'], ['r', 'a', 't', 'e', '=', '5']]
      ['d', 'e', 's', 't', '=', 'b'] [] rfl (by decide) (by decide)).2.1 _ (by decide)
      (by decide)⟩

/-- C15 as stated fails for a key of the fixed pairs: with the fixed pair `tag=node2` the
line `tag=node1 tag=node2` has the key `tag` twice, both tokens pass validation, the line
is stored (the last value matches), and the stored rule does not contain `tag` at all. -/
theorem duplicate_keys_last_wins_counterexample :
    parseParts (Split lineDupTag ' ') [] = .ok [⟨kTag, vNode2⟩] ∧
    Split lineDupTag ' ' =
      [['t', 'a', 'g', '=', 'n', 'o', 'd', 'e', '1'], ['t', 'a', 'g', '=', 'n', 'o', 'd', 'e', '2']] ∧
    lineRule [⟨kTag, vNode2⟩] lineDupTag = some ⟨[]⟩ ∧
    (⟨[]⟩ : configRule).pairs.filter (fun q => decide (q.key = kTag)) ≠ [⟨kTag, vNode2⟩] :=
  ⟨rfl, by decide, by decide, by decide⟩

/-! ## C16 -/

theorem parseFixedPairs_error (pairs : List Str) (acc : List pair)
    (h : ∃ p ∈ pairs, '=' ∉ p) : parseFixedPairs pairs acc = .error .malformedPair := by
  induction pairs generalizing acc with
  | nil => simp at h
  | cons p ps ih =>
    simp only [parseFixedPairs]
    cases hi : IndexByte p '=' with
    | none => rfl
    | some idx =>
      simp only []
      apply ih
      obtain ⟨q, hq, hne⟩ := h
      rcases List.mem_cons.1 hq with h1 | h1
      · rw [h1, ← IndexByte_none_iff, hi] at hne
        simp at hne
      · exact ⟨q, h1, hne⟩

theorem parseFixedPairs_ok (pairs : List Str) (acc : List pair)
    (h : ∀ p ∈ pairs, '=' ∈ p) :
    parseFixedPairs pairs acc = .ok (acc ++ pairs.map splitAtEq) := by
  induction pairs generalizing acc with
  | nil => simp [parseFixedPairs]
  | cons p ps ih =>
    simp only [parseFixedPairs]
    cases hi : IndexByte p '=' with
    | none =>
      exact absurd (h p (List.mem_cons_self _ _)) ((IndexByte_none_iff p '=').1 hi)
    | some idx =>
      simp only []
      rw [ih _ (fun q hq => h q (List.mem_cons_of_mem _ hq)), IndexByte_split p idx hi]
      simp

/-- C16: construction validates the fixed pairs. If some pair string has no `'='`,
`NewRoundTripper` returns the malformed-pair error and no instance, whatever the watch
and the file system would do (they are not reached); with a watch that would fail, the
malformed-pair error is returned exactly when some pair string has no `'='`, and the
validation loop itself fails exactly then; otherwise the loop yields each string split
at its first `'='` into key and value, in the order given, and these are the fixed pairs
of every instance that `NewRoundTripper` returns. -/
theorem fixed_pairs_are_validated (rulesPath : Str) (pairs : List Str) :
    ((∃ p ∈ pairs, '=' ∉ p) → ∀ (watchOk : Bool) (fs : FS),
      NewRoundTripper rulesPath pairs watchOk fs = .error .malformedPair) ∧
    (∀ fs : FS, NewRoundTripper rulesPath pairs false fs = .error .malformedPair ↔
      ∃ p ∈ pairs, '=' ∉ p) ∧
    (parseFixedPairs pairs [] = .error .malformedPair ↔ ∃ p ∈ pairs, '=' ∉ p) ∧
    ((∀ p ∈ pairs, '=' ∈ p) →
      parseFixedPairs pairs [] = .ok (pairs.map splitAtEq) ∧
      (∀ fs : FS, NewRoundTripper rulesPath pairs false fs = .error .watch) ∧
      ∀ (watchOk : Bool) (fs : FS) (rt : RoundTripper),
        NewRoundTripper rulesPath pairs watchOk fs = .ok rt →
        rt.fixedPairs = pairs.map splitAtEq) := by
  have hgood : (∀ p ∈ pairs, '=' ∈ p) →
      parseFixedPairs pairs [] = .ok (pairs.map splitAtEq) := by
    intro h
    simpa using parseFixedPairs_ok pairs [] h
  have hwatch : (∀ p ∈ pairs, '=' ∈ p) → ∀ fs : FS,
      NewRoundTripper rulesPath pairs false fs = .error .watch := by
    intro h fs
    simp [NewRoundTripper, hgood h]
  have hcases : (∃ p ∈ pairs, '=' ∉ p) ∨ ∀ p ∈ pairs, '=' ∈ p := by
    by_cases h : ∃ p ∈ pairs, '=' ∉ p
    · exact Or.inl h
    · right
      intro p hp
      by_contra hne
      exact h ⟨p, hp, hne⟩
  have hbad : (∃ p ∈ pairs, '=' ∉ p) → ∀ (watchOk : Bool) (fs : FS),
      NewRoundTripper rulesPath pairs watchOk fs = .error .malformedPair := by
    intro h w fs
    simp [NewRoundTripper, parseFixedPairs_error pairs [] h]
  refine ⟨hbad, fun fs => ⟨fun h => ?_, fun h => hbad h false fs⟩,
    ⟨fun h => ?_, fun h => parseFixedPairs_error pairs [] h⟩,
    fun h => ⟨hgood h, hwatch h, fun w fs rt hrt => ?_⟩⟩
  · rcases hcases with hc | hc
    · exact hc
    · rw [hwatch hc fs] at h
      simp at h
  · rcases hcases with hc | hc
    · exact hc
    · rw [hgood hc] at h
      simp at h
  · have hfr := loadRules_frame (freshRoundTripper rulesPath (pairs.map splitAtEq)) fs
    simp only [NewRoundTripper, hgood h] at hrt
    cases w with
    | false => simp at hrt
    | true =>
      simp only [Bool.not_true, Bool.false_eq_true, if_false] at hrt
      cases hl : loadRules (freshRoundTripper rulesPath (pairs.map splitAtEq)) fs with
      | mk rt1 oe =>
        rw [hl] at hrt hfr
        cases oe with
        | none =>
          simp only [Except.ok.injEq] at hrt
          rw [← hrt]; exact hfr.2
        | some e =>
          simp only [] at hrt
          split at hrt
          · simp at hrt
          · simp only [Except.ok.injEq] at hrt
            rw [← hrt]; exact hfr.2

/-- C16 at a concrete input: the pair strings `tag=node2` and `x` fail construction;
the pair strings `tag=node2` and `a=b=c` are split at their first `'='`. -/
theorem fixed_pairs_are_validated_witness :
    NewRoundTripper ['r'] [['t', 'a', 'g', '=', 'n', 'o', 'd', 'e', '2'], ['x']] true
      (fun _ => .error .notExist) = .error .malformedPair ∧
    parseFixedPairs [['t', 'a', 'g', '=', 'n', 'o', 'd', 'e', '2'], ['a', '=', 'b', '=', 'c']] [] =
      .ok ([['t', 'a', 'g', '=', 'n', 'o', 'd', 'e', '2'], ['a', '=', 'b', '=', 'c']].map
        splitAtEq) :=
  ⟨(fixed_pairs_are_validated ['r'] [['t', 'a', 'g', '=', 'n', 'o', 'd', 'e', '2'], ['x']]).1
      ⟨['x'], by decide, by decide⟩ true (fun _ => .error .notExist),
    ((fixed_pairs_are_validated ['r']
      [['t', 'a', 'g', '=', 'n', 'o', 'd', 'e', '2'], ['a', '=', 'b', '=', 'c']]).2.2.2
      (by decide)).1⟩

/-! ## C18 -/

theorem tokenError_eq (p : Str) :
    tokenError p =
      if '=' ∉ p then some .malformedPair
      else if (splitAtEq p).key = kRate then
        (ParseInt (TrimSuffix (splitAtEq p).value sPercent)).2.map Err.num
      else none := by
  unfold tokenError
  cases hi : IndexByte p '=' with
  | none => simp [(IndexByte_none_iff p '=').1 hi]
  | some idx =>
    have hmem : ¬ '=' ∉ p := by
      rw [← IndexByte_none_iff, hi]; simp
    have hsp := IndexByte_split p idx hi
    have hkey : (splitAtEq p).key = List.take idx p := by rw [← hsp]
    have hval : (splitAtEq p).value = List.drop (idx + 1) p := by rw [← hsp]
    simp only [hmem, if_false, hkey, hval]

theorem rateValid_of_tokenError_none (p : Str) (h : tokenError p = none) :
    rateValid (splitAtEq p) := by
  intro hk
  rw [tokenError_eq] at h
  by_cases hm : '=' ∉ p
  · simp [hm] at h
  · simp only [hm, if_false, hk, if_true, Option.map_eq_none'] at h
    exact h

theorem foldl_setToken_rateValid (ps : List Str) (m : List pair)
    (hps : ∀ p ∈ ps, tokenError p = none) (hm : ∀ q ∈ m, rateValid q) :
    ∀ q ∈ ps.foldl setToken m, rateValid q := by
  induction ps generalizing m with
  | nil => exact hm
  | cons p ps ih =>
    apply ih _ (fun q hq => hps q (List.mem_cons_of_mem _ hq))
    intro q hq
    rcases mem_mapSet m _ _ q hq with h | h
    · rw [h]; exact rateValid_of_tokenError_none p (hps p (List.mem_cons_self _ _))
    · exact hm q h

theorem lineRule_rateValid (F : List pair) (line : Str) (r : configRule)
    (h : lineRule F line = some r) : ∀ q ∈ r.pairs, rateValid q := by
  unfold lineRule at h
  cases hp : parseParts (Split line ' ') [] with
  | error e => rw [hp] at h; simp at h
  | ok byKey =>
    rw [hp] at h
    simp only [] at h
    cases hf : applyFixed F byKey with
    | none => rw [hf] at h; simp at h
    | some m =>
      rw [hf] at h
      simp only [Option.map_some', Option.some.injEq] at h
      have hok : ∀ p ∈ Split line ' ', tokenError p = none :=
        (parseParts_ok_iff _ []).1 ⟨byKey, hp⟩
      have hby := foldl_setToken_rateValid (Split line ' ') [] hok (by simp)
      rw [← parseParts_ok_foldl _ _ _ hp] at hby
      intro q hq
      rw [← h] at hq
      have hq2 := (sortPairs_perm m).mem_iff.1 hq
      rw [applyFixed_some F byKey m hf] at hq2
      exact hby q (List.mem_filter.1 hq2).1

/-- C18: rate values are validated before storage. On a readable file: if some token with
key `rate` has a value that, after one optional trailing `%` is stripped, `ParseInt`
rejects, `loadRules` returns an error and installs nothing, also when a later `rate`
token of the same line is valid (as in `rate=x rate=5`); and after a successful load every
`rate` pair of every stored rule has a value that the parse of `failCommon` accepts, so
the error ignored there is `nil` and the rate used is the parsed integer. -/
theorem rate_is_validated (rt : RoundTripper) (fs : FS) (b : Str)
    (hf : fs rt.rulesPath = .ok b) :
    ((∃ line ∈ Split (TrimSpace b) '\n', ∃ p ∈ Split line ' ',
        '=' ∈ p ∧ (splitAtEq p).key = kRate ∧
          (ParseInt (TrimSuffix (splitAtEq p).value sPercent)).2 ≠ none) →
      (loadRules rt fs).2 ≠ none ∧ (loadRules rt fs).1 = rt) ∧
    ((loadRules rt fs).2 = none →
      ∀ r ∈ (loadRules rt fs).1.rules, ∀ q ∈ r.pairs, q.key = kRate →
        ParseInt (TrimSuffix q.value sPercent) = (rateOf q.value, none)) ∧
    loadRules rt (fun _ => .ok lineBadThenGoodRate) = (rt, some (.num .errSyn)) := by
  refine ⟨?_, fun hok r hr q hq hk => ?_, ?_⟩
  · rintro ⟨line, hl, p, hp, hm, hk, hbad⟩
    have herr : (loadRules rt fs).2 ≠ none := by
      rw [loadRules_error_iff]
      right
      refine ⟨b, hf, fun hw => ?_⟩
      have := rateValid_of_tokenError_none p (hw line hl p hp) hk
      exact hbad this
    exact ⟨herr, loadRules_error_state rt fs herr⟩
  · have hrules : ∃ rules, loadLines rt.fixedPairs (Split (TrimSpace b) '\n') [] = .ok rules ∧
        (loadRules rt fs).1.rules = rules := by
      unfold loadRules at hok ⊢
      rw [hf] at hok ⊢
      simp only [] at hok ⊢
      cases hl : loadLines rt.fixedPairs (Split (TrimSpace b) '\n') [] with
      | error e => rw [hl] at hok; simp at hok
      | ok rules => exact ⟨rules, rfl, rfl⟩
    obtain ⟨rules, hl, hrs⟩ := hrules
    rw [hrs, loadLines_eq_filterMap _ _ _ hl, List.mem_filterMap] at hr
    obtain ⟨line, _, hline⟩ := hr
    have hv := lineRule_rateValid rt.fixedPairs line r hline q hq hk
    exact Prod.ext rfl hv
  · have hl : loadLines rt.fixedPairs (Split (TrimSpace lineBadThenGoodRate) '\n') [] =
        .error (.num .errSyn) := by
      have hs : Split (TrimSpace lineBadThenGoodRate) '\n' = [lineBadThenGoodRate] := by decide
      have hp : parseParts (Split lineBadThenGoodRate ' ') [] = .error (.num .errSyn) := rfl
      rw [hs]
      simp only [loadLines, hp]
    simp only [loadRules, hl]

/-- C18 at a concrete input: the file `dest=b`, newline, `rate=x` is rejected from
`c1State`, which stays as it was. -/
theorem rate_is_validated_witness :
    (loadRules c1State c1Bad).2 ≠ none ∧ (loadRules c1State c1Bad).1 = c1State :=
  (rate_is_validated c1State c1Bad
    ['d', 'e', 's', 't', '=', 'b', '\n', 'r', 'a', 't', 'e', '=', 'x'] rfl).1
    ⟨['r', 'a', 't', 'e', '=', 'x'], by decide, ['r', 'a', 't', 'e', '=', 'x'], by decide,
      by decide, by decide, by decide⟩

/-! ## C19 -/

theorem Char_toNat_inj (a b : Char) (h : a.toNat = b.toNat) : a = b := by
  apply Char.ext
  apply UInt32.ext
  exact h

theorem strLess_irrefl (a : Str) : strLess a a = false := by
  induction a with
  | nil => rfl
  | cons x xs ih => simp [strLess, ih]

theorem strLess_trans (a b c : Str) (hab : strLess a b = true) (hbc : strLess b c = true) :
    strLess a c = true := by
  induction a generalizing b c with
  | nil =>
    cases c with
    | nil => cases b <;> simp [strLess] at hbc
    | cons z cs => rfl
  | cons x xs ih =>
    cases b with
    | nil => simp [strLess] at hab
    | cons y ys =>
      cases c with
      | nil => simp [strLess] at hbc
      | cons z zs =>
        simp only [strLess] at hab hbc ⊢
        by_cases h1 : x.toNat < y.toNat
        · by_cases h2 : y.toNat < z.toNat
          · have : x.toNat < z.toNat := by omega
            simp [this]
          · by_cases h3 : z.toNat < y.toNat
            · simp [h2, h3] at hbc
            · have : x.toNat < z.toNat := by omega
              simp [this]
        · by_cases h4 : y.toNat < x.toNat
          · simp [h1, h4] at hab
          · simp only [h1, h4, if_false] at hab
            by_cases h2 : y.toNat < z.toNat
            · have : x.toNat < z.toNat := by omega
              simp [this]
            · by_cases h3 : z.toNat < y.toNat
              · simp [h2, h3] at hbc
              · simp only [h2, h3, if_false] at hbc
                have e1 : ¬ x.toNat < z.toNat := by omega
                have e2 : ¬ z.toNat < x.toNat := by omega
                simp only [e1, e2, if_false]
                exact ih ys zs hab hbc

theorem strLess_total (a b : Str) (h : a ≠ b) : strLess a b = true ∨ strLess b a = true := by
  induction a generalizing b with
  | nil =>
    cases b with
    | nil => exact absurd rfl h
    | cons y ys => left; rfl
  | cons x xs ih =>
    cases b with
    | nil => right; rfl
    | cons y ys =>
      simp only [strLess]
      by_cases h1 : x.toNat < y.toNat
      · left; simp [h1]
      · by_cases h2 : y.toNat < x.toNat
        · right; simp [h2]
        · have hxy : x = y := Char_toNat_inj x y (by omega)
          have hne : xs ≠ ys := fun e => h (by rw [hxy, e])
          simp only [h1, h2, if_false]
          exact ih ys hne

theorem strLess_asymm (a b : Str) (hab : strLess a b = true) : ¬ strLess b a = true := by
  intro hba
  have := strLess_trans a b a hab hba
  rw [strLess_irrefl] at this
  exact absurd this (by decide)

theorem mem_insertPair (a q : pair) (l : List pair) : q ∈ insertPair a l ↔ q = a ∨ q ∈ l := by
  rw [(insertPair_perm a l).mem_iff, List.mem_cons]

theorem insertPair_ascending (a : pair) (l : List pair) (hl : ascending l)
    (hne : ∀ b ∈ l, b.key ≠ a.key) : ascending (insertPair a l) := by
  unfold ascending at hl ⊢
  induction l with
  | nil => simp [insertPair]
  | cons b bs ih =>
    rw [List.pairwise_cons] at hl
    simp only [insertPair]
    by_cases hab : strLess a.key b.key = true
    · rw [if_pos hab, List.pairwise_cons, List.pairwise_cons]
      refine ⟨fun c hc => ?_, hl⟩
      rcases List.mem_cons.1 hc with h | h
      · rw [h]; exact hab
      · exact strLess_trans _ _ _ hab (hl.1 c h)
    · rw [if_neg hab, List.pairwise_cons]
      refine ⟨fun c hc => ?_, ih hl.2 (fun c hc => hne c (List.mem_cons_of_mem _ hc))⟩
      rcases (mem_insertPair a c bs).1 hc with h | h
      · rw [h]
        rcases strLess_total a.key b.key
          (fun e => hne b (List.mem_cons_self _ _) e.symm) with h2 | h2
        · exact absurd h2 hab
        · exact h2
      · exact hl.1 c h

theorem sortPairs_ascending (l : List pair) (hn : (l.map pair.key).Nodup) :
    ascending (sortPairs l) := by
  induction l with
  | nil => simp [sortPairs, ascending]
  | cons a as ih =>
    rw [List.map_cons, List.nodup_cons] at hn
    apply insertPair_ascending a _ (ih hn.2)
    intro b hb hk
    exact hn.1 (hk ▸ List.mem_map_of_mem _ ((sortPairs_perm as).mem_iff.1 hb))

theorem ascending_unique (l1 l2 : List pair) (hp : l1.Perm l2) (h1 : ascending l1)
    (h2 : ascending l2) : l1 = l2 := by
  haveI : IsAntisymm pair (fun a b => strLess a.key b.key = true) :=
    ⟨fun a b hab hba => absurd hba (strLess_asymm _ _ hab)⟩
  exact List.eq_of_perm_of_sorted hp h1 h2

theorem ascending_keys_nodup (l : List pair) (h : ascending l) : (l.map pair.key).Nodup := by
  unfold ascending at h
  rw [List.Nodup, List.pairwise_map]
  refine h.imp ?_
  intro a b hab e
  rw [e, strLess_irrefl] at hab
  exact absurd hab (by decide)

theorem lineRule_ascending (F : List pair) (line : Str) (r : configRule)
    (h : lineRule F line = some r) : ascending r.pairs := by
  unfold lineRule at h
  cases hp : parseParts (Split line ' ') [] with
  | error e => rw [hp] at h; simp at h
  | ok byKey =>
    rw [hp] at h
    simp only [] at h
    cases hf : applyFixed F byKey with
    | none => rw [hf] at h; simp at h
    | some m =>
      rw [hf] at h
      simp only [Option.map_some', Option.some.injEq] at h
      rw [← h]
      apply sortPairs_ascending
      rw [applyFixed_some F byKey m hf]
      have hnd : (byKey.map pair.key).Nodup := by
        rw [parseParts_ok_foldl _ _ _ hp]; exact foldl_setToken_nodup _ _ (by simp)
      exact hnd.sublist ((List.filter_sublist _).map _)

/-- C19: every rule stored by a successful `loadRules` has its pairs in strictly ascending
key order, hence with pairwise distinct keys; the rules are those of the lines of the
file, in the order of the lines; and the stored rule does not depend on the order in
which the map `byKey` is ranged over or on the sorting algorithm: sorting any
rearrangement of a map with distinct keys gives the same list, and every ascending
rearrangement of the map is that list. So the rule list is a function of the file content
and the fixed pairs alone. -/
theorem stored_rules_are_sorted (rt : RoundTripper) (fs : FS) (b : Str)
    (hf : fs rt.rulesPath = .ok b) (hok : (loadRules rt fs).2 = none) :
    (∀ r ∈ (loadRules rt fs).1.rules, ascending r.pairs ∧ (r.pairs.map pair.key).Nodup) ∧
    (loadRules rt fs).1.rules =
      (Split (TrimSpace b) '\n').filterMap (lineRule rt.fixedPairs) ∧
    (∀ m1 m2 : List pair, m1.Perm m2 → (m1.map pair.key).Nodup →
      sortPairs m1 = sortPairs m2) ∧
    (∀ m out : List pair, (m.map pair.key).Nodup → out.Perm m → ascending out →
      out = sortPairs m) := by
  have hrules : (loadRules rt fs).1.rules =
      (Split (TrimSpace b) '\n').filterMap (lineRule rt.fixedPairs) := by
    unfold loadRules at hok ⊢
    rw [hf] at hok ⊢
    simp only [] at hok ⊢
    cases hl : loadLines rt.fixedPairs (Split (TrimSpace b) '\n') [] with
    | error e => rw [hl] at hok; simp at hok
    | ok rules => exact loadLines_eq_filterMap _ _ _ hl
  refine ⟨fun r hr => ?_, hrules, fun m1 m2 hp hn => ?_, fun m out hn hp ha => ?_⟩
  · rw [hrules, List.mem_filterMap] at hr
    obtain ⟨line, _, hline⟩ := hr
    have ha := lineRule_ascending rt.fixedPairs line r hline
    exact ⟨ha, ascending_keys_nodup _ ha⟩
  · have hn2 : (m2.map pair.key).Nodup := (hp.map pair.key).nodup_iff.1 hn
    exact ascending_unique _ _
      (((sortPairs_perm m1).trans hp).trans (sortPairs_perm m2).symm)
      (sortPairs_ascending m1 hn) (sortPairs_ascending m2 hn2)
  · exact ascending_unique _ _ (hp.trans (sortPairs_perm m).symm) ha
      (sortPairs_ascending m hn)

/-- C19 at a concrete input: the file with the one line
`stage=dial redial=force rate=5 dest=a` is stored in the order `dest`, `rate`, `redial`,
`stage`. -/
theorem stored_rules_are_sorted_witness :
    (loadRules c1State (fun _ => .ok
      ['s', 't', 'a', 'g', 'e', '=', 'd', 'i', 'a', 'l', ' ', 'r', 'e', 'd', 'i', 'a', 'l', '=',
        'f', ' ', 'r', 'a', 't', 'e', '=', '5', ' ', 'd', 'e', 's', 't', '=', 'a'])).1.rules =
      [⟨[⟨kDest, ['a']⟩, ⟨kRate, ['5']⟩, ⟨kRedial, ['f']⟩, ⟨kStage, sDial⟩]⟩] ∧
    ∀ r ∈ (loadRules c1State (fun _ => .ok
      ['s', 't', 'a', 'g', 'e', '=', 'd', 'i', 'a', 'l', ' ', 'r', 'e', 'd', 'i', 'a', 'l', '=',
        'f', ' ', 'r', 'a', 't', 'e', '=', '5', ' ', 'd', 'e', 's', 't', '=', 'a'])).1.rules,
      ascending r.pairs ∧ (r.pairs.map pair.key).Nodup :=
  ⟨by decide,
    (stored_rules_are_sorted c1State _
      ['s', 't', 'a', 'g', 'e', '=', 'd', 'i', 'a', 'l', ' ', 'r', 'e', 'd', 'i', 'a', 'l', '=',
        'f', ' ', 'r', 'a', 't', 'e', '=', '5', ' ', 'd', 'e', 's', 't', '=', 'a'] rfl
      (by decide)).1⟩

/-! ## C20 -/

theorem matchPairs_closed_of_no_redial (stage dest : Str) (rnd : Nat → ℚ) (ps : List pair)
    (env : Env) (h : ∀ p ∈ ps, p.key ≠ kRedial) :
    (matchPairs stage dest rnd ps env).2.closed = env.closed := by
  induction ps generalizing env with
  | nil => rfl
  | cons p ps ih =>
    have hp : ¬ p.key = kRedial := h p (List.mem_cons_self _ _)
    have ih2 := fun e => ih e (fun q hq => h q (List.mem_cons_of_mem _ hq))
    simp only [matchPairs, hp, if_false]
    by_cases h1 : p.key = kDest
    · simp only [h1, if_true]
      split
      · rfl
      · exact ih2 env
    · simp only [h1, if_false]
      by_cases h2 : p.key = kRate
      · simp only [h2, if_true]
        split
        · rw [ih2]
        · rfl
      · simp only [h2, if_false]
        by_cases h3 : p.key = kStage
        · simp only [h3, if_true]
          split
          · rfl
          · exact ih2 env
        · simp only [h3, if_false]

theorem matchPairs_dial_closed (dest : Str) (rnd : Nat → ℚ) (ps : List pair) (env : Env) :
    (matchPairs sDial dest rnd ps env).2.closed = env.closed := by
  have hne : ¬ sDial = sRequest := by decide
  induction ps generalizing env with
  | nil => rfl
  | cons p ps ih =>
    simp only [matchPairs, hne, if_false]
    by_cases h1 : p.key = kDest
    · simp only [h1, if_true]
      split
      · rfl
      · exact ih env
    · simp only [h1, if_false]
      by_cases h2 : p.key = kRate
      · simp only [h2, if_true]
        split
        · rw [ih]
        · rfl
      · simp only [h2, if_false]
        by_cases h3 : p.key = kStage
        · simp only [h3, if_true]
          split
          · rfl
          · exact ih env
        · simp only [h3, if_false]
          by_cases h4 : p.key = kRedial
          · simp only [h4, if_true]
            exact ih env
          · simp only [h4, if_false]

theorem failRules_dial_closed (dest : Str) (rnd : Nat → ℚ) (rules : List configRule)
    (env : Env) : (failRules sDial dest rnd rules env).2.closed = env.closed := by
  induction rules generalizing env with
  | nil => rfl
  | cons r rest ih =>
    have hm := matchPairs_dial_closed dest rnd r.pairs env
    simp only [failRules]
    cases hv : matchPairs sDial dest rnd r.pairs env with
    | mk v env1 =>
      rw [hv] at hm
      cases v with
      | matched => exact hm
      | abandoned => simp only []; rw [ih, ← hm]
      | fatal => exact hm

theorem matchPairs_append_of_satisfied (stage dest : Str) (rnd : Nat → ℚ) (hr : inRange rnd)
    (pre rest : List pair) (env : Env) (hk : knownKeys pre)
    (hs : ruleSatisfied stage dest rnd env.drawn pre) :
    matchPairs stage dest rnd (pre ++ rest) env =
      matchPairs stage dest rnd rest (afterPairs stage env pre) := by
  induction pre generalizing env with
  | nil => simp [afterPairs_nil]
  | cons p ps ih =>
    obtain ⟨h1, h2⟩ := (ruleSatisfied_cons stage dest rnd env.drawn p ps).1 hs
    rw [List.cons_append,
      (matchPairs_step stage dest rnd hr p (ps ++ rest) env (hk p (List.mem_cons_self _ _))).1 h1,
      ih (afterPairs stage env [p]) (fun q hq => hk q (List.mem_cons_of_mem _ hq)) h2,
      afterPairs_append]
    rfl

theorem redialCount_eq_zero (ps : List pair) (hn : ∀ p ∈ ps, p.key ≠ kRedial) :
    redialCount ps = 0 := by
  unfold redialCount
  rw [List.countP_eq_zero]
  intro p hp
  simpa using hn p hp

theorem matchPairs_redial_closed (dest : Str) (rnd : Nat → ℚ) (hr : inRange rnd)
    (pre : List pair) (v : Str) (post : List pair) (env : Env)
    (hpre : ∀ p ∈ pre, p.key = kDest ∨ p.key = kRate) (hpost : ∀ p ∈ post, p.key = kStage) :
    (ruleSatisfied sRequest dest rnd env.drawn pre →
      (matchPairs sRequest dest rnd (pre ++ ⟨kRedial, v⟩ :: post) env).2.closed =
        env.closed + 1) ∧
    (¬ ruleSatisfied sRequest dest rnd env.drawn pre →
      matchPairs sRequest dest rnd (pre ++ ⟨kRedial, v⟩ :: post) env =
          (.abandoned, (matchPairs sRequest dest rnd pre env).2) ∧
        (matchPairs sRequest dest rnd (pre ++ ⟨kRedial, v⟩ :: post) env).2.closed =
          env.closed) := by
  have e1 : ¬ kDest = kRedial := by decide
  have e2 : ¬ kRate = kRedial := by decide
  have e3 : ¬ kStage = kRedial := by decide
  have hkpre : knownKeys pre := by
    intro p hp
    rcases hpre p hp with h | h
    · exact Or.inl h
    · exact Or.inr (Or.inl h)
  have hnpre : ∀ p ∈ pre, p.key ≠ kRedial := by
    intro p hp
    rcases hpre p hp with h | h
    · rw [h]; exact e1
    · rw [h]; exact e2
  have hnpost : ∀ p ∈ post, p.key ≠ kRedial := by
    intro p hp; rw [hpost p hp]; exact e3
  constructor
  · intro hs
    rw [matchPairs_append_of_satisfied sRequest dest rnd hr pre _ env hkpre hs,
      matchPairs_redial, if_pos rfl,
      matchPairs_closed_of_no_redial sRequest dest rnd post _ hnpost]
    simp [afterPairs, redialCount_eq_zero pre hnpre]
  · intro hs
    obtain ⟨a, p, c, hsplit, ha, hp⟩ :=
      exists_first_unsatisfied sRequest dest rnd env.drawn pre hs
    have hk1 : knownKeys (a ++ p :: c) := by rw [← hsplit]; exact hkpre
    have hk2 : knownKeys (a ++ p :: (c ++ ⟨kRedial, v⟩ :: post)) := by
      intro q hq
      rcases List.mem_append.1 hq with h | h
      · exact hk1 q (List.mem_append_left _ h)
      · rcases List.mem_cons.1 h with h2 | h2
        · exact hk1 q (by rw [h2]; simp)
        · rcases List.mem_append.1 h2 with h3 | h3
          · exact hk1 q (by simp [h3])
          · rcases List.mem_cons.1 h3 with h4 | h4
            · rw [h4]; exact Or.inr (Or.inr (Or.inr rfl))
            · exact Or.inr (Or.inr (Or.inl (hpost q h4)))
    have hwhole := matchPairs_of_first_unsatisfied sRequest dest rnd hr a p
      (c ++ ⟨kRedial, v⟩ :: post) env hk2 ha hp
    have hpart := matchPairs_of_first_unsatisfied sRequest dest rnd hr a p c env hk1 ha hp
    have heq : pre ++ ⟨kRedial, v⟩ :: post = a ++ p :: (c ++ ⟨kRedial, v⟩ :: post) := by
      rw [hsplit]; simp
    rw [heq, hwhole, hsplit, hpart]
    refine ⟨rfl, ?_⟩
    have hz : redialCount (a ++ [p]) = 0 := by
      apply redialCount_eq_zero
      intro q hq
      apply hnpre q
      rw [hsplit]
      rcases List.mem_append.1 hq with h | h
      · exact List.mem_append_left _ h
      · exact List.mem_append_right _ (by
          rw [List.mem_singleton.1 h]; exact List.mem_cons_self _ _)
    simp [afterPairs, hz]

theorem redial_position (ps pre : List pair) (v : Str) (post : List pair)
    (ha : ascending ps) (hk : knownKeys ps) (hsplit : ps = pre ++ ⟨kRedial, v⟩ :: post) :
    (∀ p ∈ pre, p.key = kDest ∨ p.key = kRate) ∧ (∀ p ∈ post, p.key = kStage) := by
  unfold ascending at ha
  rw [hsplit, List.pairwise_append] at ha
  obtain ⟨_, hright, hcross⟩ := ha
  rw [List.pairwise_cons] at hright
  have f1 : strLess kStage kRedial = false := by decide
  have f2 : strLess kRedial kRedial = false := by decide
  have f3 : strLess kRedial kDest = false := by decide
  have f4 : strLess kRedial kRate = false := by decide
  constructor
  · intro p hp
    have hlt : strLess p.key kRedial = true := hcross p hp _ (List.mem_cons_self _ _)
    rcases hk p (by rw [hsplit]; exact List.mem_append_left _ hp) with h | h | h | h
    · exact Or.inl h
    · exact Or.inr h
    · rw [h, f1] at hlt; exact absurd hlt (by decide)
    · rw [h, f2] at hlt; exact absurd hlt (by decide)
  · intro p hp
    have hlt : strLess kRedial p.key = true := hright.1 p hp
    rcases hk p (by
      rw [hsplit]; exact List.mem_append_right _ (List.mem_cons_of_mem _ hp)) with h | h | h | h
    · rw [h, f3] at hlt; exact absurd hlt (by decide)
    · rw [h, f4] at hlt; exact absurd hlt (by decide)
    · exact h
    · rw [h, f2] at hlt; exact absurd hlt (by decide)

/-- C20: the connection pool is touched only by `redial` at stage `request`, and `redial` is
evaluated before the `stage` pair of its rule. For samples in `[0, 100)`: a dial-stage
evaluation never calls `CloseIdleConnections`, whatever the rules; pairs other than
`redial` never call it; the keys are ordered `dest < rate < redial < stage`, so in a
stored rule (ascending, with known keys) only `dest` and `rate` pairs stand before the
`redial` pair and only the `stage` pair after it; a request-stage evaluation of such a
rule calls `CloseIdleConnections` once if the `dest` and `rate` pairs before the `redial`
pair are satisfied, also when the `stage` pair then mismatches, and not at all otherwise
(the rule is then left before the `redial` pair); a rule that is left hands its
environment on to the next rule; and the rule `dest=D redial=force stage=dial` queried at
(`request`, `D`) closes the idle connections once and returns false. -/
theorem redial_closes_before_stage (dest : Str) (rnd : Nat → ℚ) (hr : inRange rnd) :
    (∀ (rules : List configRule) (env : Env),
      (failRules sDial dest rnd rules env).2.closed = env.closed) ∧
    (∀ (stage : Str) (ps : List pair) (env : Env), (∀ p ∈ ps, p.key ≠ kRedial) →
      (matchPairs stage dest rnd ps env).2.closed = env.closed) ∧
    (strLess kDest kRate = true ∧ strLess kRate kRedial = true ∧
      strLess kRedial kStage = true) ∧
    (∀ (ps pre : List pair) (v : Str) (post : List pair), ascending ps → knownKeys ps →
      ps = pre ++ ⟨kRedial, v⟩ :: post →
      (∀ p ∈ pre, p.key = kDest ∨ p.key = kRate) ∧ (∀ p ∈ post, p.key = kStage)) ∧
    (∀ (pre : List pair) (v : Str) (post : List pair) (env : Env),
      (∀ p ∈ pre, p.key = kDest ∨ p.key = kRate) → (∀ p ∈ post, p.key = kStage) →
      (ruleSatisfied sRequest dest rnd env.drawn pre →
        (matchPairs sRequest dest rnd (pre ++ ⟨kRedial, v⟩ :: post) env).2.closed =
          env.closed + 1) ∧
      (¬ ruleSatisfied sRequest dest rnd env.drawn pre →
        matchPairs sRequest dest rnd (pre ++ ⟨kRedial, v⟩ :: post) env =
            (.abandoned, (matchPairs sRequest dest rnd pre env).2) ∧
          (matchPairs sRequest dest rnd (pre ++ ⟨kRedial, v⟩ :: post) env).2.closed =
            env.closed)) ∧
    (∀ (r : configRule) (rest : List configRule) (env : Env),
      (matchPairs sRequest dest rnd r.pairs env).1 = .abandoned →
      failRules sRequest dest rnd (r :: rest) env =
        failRules sRequest dest rnd rest (matchPairs sRequest dest rnd r.pairs env).2) ∧
    (∀ (v : Str) (env : Env),
      failRules sRequest dest rnd [⟨[⟨kDest, dest⟩, ⟨kRedial, v⟩, ⟨kStage, sDial⟩]⟩] env =
        (some false, ⟨env.drawn, env.closed + 1⟩)) ∧
    lineRule [] lineRedialDial =
      some ⟨[⟨kDest, ['h']⟩, ⟨kRedial, vForce⟩, ⟨kStage, sDial⟩]⟩ := by
  refine ⟨fun rules env => failRules_dial_closed dest rnd rules env,
    fun stage ps env h => matchPairs_closed_of_no_redial stage dest rnd ps env h,
    ⟨by decide, by decide, by decide⟩,
    fun ps pre v post ha hk hs => redial_position ps pre v post ha hk hs,
    fun pre v post env h1 h2 => matchPairs_redial_closed dest rnd hr pre v post env h1 h2,
    fun r rest env h => ?_, fun v env => ?_, by decide⟩
  · simp only [failRules]
    cases hv : matchPairs sRequest dest rnd r.pairs env with
    | mk verdict env1 =>
      rw [hv] at h
      simp only [] at h
      subst h
      rfl
  · have hne : ¬ sDial = sRequest := by decide
    simp [failRules, matchPairs_dest, matchPairs_redial, matchPairs_stage, hne]

/-- C20 at a concrete input: the stored rule `dest=h rate=100% redial=force stage=dial` at
(`request`, `h`) with the samples 5, 5, ... closes the idle connections once, although its
`stage` pair then mismatches. -/
theorem redial_closes_before_stage_witness :
    inRange (fun _ => 5) ∧
    (matchPairs sRequest ['h'] (fun _ => 5)
      ([⟨kDest, ['h']⟩, ⟨kRate, vHundred⟩] ++ ⟨kRedial, vForce⟩ :: [⟨kStage, sDial⟩])
      ⟨0, 0⟩).2.closed = 0 + 1 :=
  ⟨fun _ => ⟨by norm_num, by norm_num⟩,
    (((redial_closes_before_stage ['h'] (fun _ => 5)
      (fun _ => ⟨by norm_num, by norm_num⟩)).2.2.2.2.1
      [⟨kDest, ['h']⟩, ⟨kRate, vHundred⟩] vForce [⟨kStage, sDial⟩] ⟨0, 0⟩
      (by decide) (by decide)).1
      ((ruleSatisfied_cons sRequest ['h'] (fun _ => 5) 0 ⟨kDest, ['h']⟩
        [⟨kRate, vHundred⟩]).2
        ⟨⟨fun _ => rfl, fun h => absurd h (by decide), fun h => absurd h (by decide)⟩,
          (ruleSatisfied_cons sRequest ['h'] (fun _ => 5) _ ⟨kRate, vHundred⟩ []).2
          ⟨⟨fun h => absurd h (by decide), fun h => absurd h (by decide), fun _ => by
            have h100 : rateOf vHundred = 100 := by decide
            rw [h100]; norm_num⟩,
            ruleSatisfied_nil _ _ _ _⟩⟩))⟩

end Flakyhttp
